import Mathlib

/-!
Verification of the document section splitter in `BlockSearch-Mac.py`.

Strings are modelled as `List Char`.  Python regular-expression operations
used by the code (`re.sub` with the three fixed patterns) are embedded as
explicit list transformations.  Machine integers are `Int`/`Nat` (Python
integers are unbounded, so no wrap-around modelling is needed).  The
cancellation flag shared with the UI thread is modelled by the number of
flag reads performed so far together with an optional read index at which
the flag becomes (and stays) set; this captures the one-way monotone flag
polled at the code's explicit checkpoints.  Progress percentages
(`int((idx / total) * 100)`) are modelled in exact rational arithmetic as
truncating division, abstracting the host's binary floating point.
-/

/-- Strings of the Python program, as lists of characters. -/
abbrev Str : Type := List Char

/-- Coerce a Lean string literal to the `List Char` model. -/
def hstr (s : String) : Str := s.toList

/-- Characters removed by `sanitize_filename`: the class
`[<>:"/\\|?*]` of `re.sub(r'[<>:"/\\|?*]', '', title)`. -/
def illegalChar (c : Char) : Bool :=
  c == '<' || c == '>' || c == ':' || c == '\"' || c == '/' ||
  c == '\\' || c == '|' || c == '?' || c == '*'

/-- Whitespace characters matched by the pattern `\s` of
`re.sub(r'\s+', '_', safe)` (the main ASCII whitespace characters;
further Unicode space code points behave identically and are elided). -/
def pySpace (c : Char) : Bool :=
  c == ' ' || c == '\t' || c == '\n' || c == '\r' || c == '\x0b' || c == '\x0c'

/-- Dot character test, for `re.sub(r'\.+', '.', safe)`. -/
def isDot (c : Char) : Bool := c == '.'

/-- Characters stripped at both ends by `safe.strip('._')`. -/
def stripSet (c : Char) : Bool := c == '.' || c == '_'

/-- Worker for run collapsing: `inRun` records whether the previous
character satisfied `p`, so that a maximal run of `p`-characters is
replaced by the single character `r`. -/
def collapseRunsAux (p : Char → Bool) (r : Char) : Bool → Str → Str
  | _, [] => []
  | inRun, c :: rest =>
    if p c then
      if inRun then collapseRunsAux p r true rest
      else r :: collapseRunsAux p r true rest
    else c :: collapseRunsAux p r false rest

/-- Replace every maximal run of characters satisfying `p` by the single
character `r`: the effect of `re.sub(pattern+, r, s)` for a character
class pattern. -/
def collapseRuns (p : Char → Bool) (r : Char) (l : Str) : Str :=
  collapseRunsAux p r false l

/-- Drop characters satisfying `p` from both ends of the list: the
effect of Python's `str.strip` with a character set. -/
def stripEdges (p : Char → Bool) (l : Str) : Str :=
  ((l.dropWhile p).reverse.dropWhile p).reverse

/-- `FilenameManager.sanitize_filename`: remove illegal characters,
collapse whitespace runs to `_`, collapse dot runs to `.`, truncate to
`maxLength`, then strip leading/trailing `.` and `_`. -/
def sanitize_filename (title : Str) (maxLength : Nat) : Str :=
  stripEdges stripSet
    (((collapseRuns isDot '.' (collapseRuns pySpace '_'
      (title.filter (fun c => !illegalChar c)))).take maxLength))

example : sanitize_filename (hstr "  My: doc?.txt.. ") 240 = hstr "My_doc.txt" := by decide
example : sanitize_filename (hstr "A") 240 = hstr "A" := by decide

/-! ### Properties of the sanitizer pipeline (claim C6) -/

/-- No two adjacent characters of the list both satisfy `p`. -/
def NoRun (p : Char → Bool) (l : Str) : Prop :=
  List.Chain' (fun a b => ¬(p a = true ∧ p b = true)) l

theorem collapseRunsAux_true_eq (p : Char → Bool) (r : Char) :
    ∀ l : Str, collapseRunsAux p r true l = collapseRunsAux p r false (l.dropWhile p) := by
  intro l
  induction l with
  | nil => rfl
  | cons c rest ih =>
    by_cases h : p c = true
    · simp [collapseRunsAux, h, List.dropWhile_cons, ih]
    · simp only [Bool.not_eq_true] at h
      simp [collapseRunsAux, h, List.dropWhile_cons]

theorem mem_collapseRunsAux (p : Char → Bool) (r : Char) :
    ∀ (b : Bool) (l : Str) (c : Char), c ∈ collapseRunsAux p r b l → c = r ∨ (c ∈ l ∧ p c = false) := by
  intro b l
  induction l generalizing b with
  | nil => intro c hc; simp [collapseRunsAux] at hc
  | cons d rest ih =>
    intro c hc
    by_cases h : p d = true
    · cases b with
      | true =>
        simp only [collapseRunsAux, h, if_pos] at hc
        rcases ih true c hc with h1 | h2
        · exact Or.inl h1
        · exact Or.inr ⟨List.mem_cons_of_mem _ h2.1, h2.2⟩
      | false =>
        simp only [collapseRunsAux, h, if_pos] at hc
        rcases List.mem_cons.1 hc with h1 | h1
        · exact Or.inl h1
        · rcases ih true c h1 with h2 | h2
          · exact Or.inl h2
          · exact Or.inr ⟨List.mem_cons_of_mem _ h2.1, h2.2⟩
    · simp only [collapseRunsAux, h, if_neg, Bool.false_eq_true, not_false_iff] at hc
      rcases List.mem_cons.1 hc with h1 | h1
      · subst h1; exact Or.inr ⟨List.mem_cons_self _ _, by simpa using h⟩
      · rcases ih false c h1 with h2 | h2
        · exact Or.inl h2
        · exact Or.inr ⟨List.mem_cons_of_mem _ h2.1, h2.2⟩

theorem collapseRunsAux_id_of_not_p (p : Char → Bool) (r : Char) :
    ∀ (b : Bool) (l : Str), (∀ c ∈ l, p c = false) → collapseRunsAux p r b l = l := by
  intro b l
  induction l generalizing b with
  | nil => intro _; rfl
  | cons d rest ih =>
    intro h
    have hd : p d = false := h d (List.mem_cons_self _ _)
    simp only [collapseRunsAux, hd, Bool.false_eq_true, if_neg, not_false_iff]
    rw [ih false (fun c hc => h c (List.mem_cons_of_mem _ hc))]

theorem head?_collapseRunsAux_false (p : Char → Bool) (r : Char) :
    ∀ (l : Str) (c : Char), (collapseRunsAux p r false l).head? = some c → p c = false ∨ c = r := by
  intro l c hc
  cases l with
  | nil => simp [collapseRunsAux] at hc
  | cons d rest =>
    by_cases h : p d = true
    · have hstep : collapseRunsAux p r false (d :: rest) = r :: collapseRunsAux p r true rest := by
        simp [collapseRunsAux, h]
      rw [hstep] at hc
      simp only [List.head?_cons, Option.some.injEq] at hc
      exact Or.inr hc.symm
    · simp only [Bool.not_eq_true] at h
      simp only [collapseRunsAux, h, Bool.false_eq_true, if_neg, not_false_iff,
        List.head?_cons, Option.some.injEq] at hc
      exact Or.inl (hc ▸ h)

theorem head?_collapseRunsAux_false_eq (p : Char → Bool) (r : Char) (l : Str)
    (h : ∀ c, l.head? = some c → p c = false) :
    (collapseRunsAux p r false l).head? = l.head? := by
  cases l with
  | nil => rfl
  | cons d rest =>
    have hd : p d = false := h d rfl
    simp [collapseRunsAux, hd]

theorem noRun_collapseRuns (p : Char → Bool) (r : Char) (l : Str) :
    NoRun p (collapseRuns p r l) := by
  suffices h : ∀ n (m : Str), m.length ≤ n → NoRun p (collapseRunsAux p r false m) by
    exact h l.length l le_rfl
  intro n
  induction n with
  | zero =>
    intro m hm
    rw [List.length_eq_zero.1 (Nat.le_zero.1 hm)]
    exact List.chain'_nil
  | succ n ih =>
    intro m hm
    cases m with
    | nil => exact List.chain'_nil
    | cons c rest =>
      simp only [List.length_cons, Nat.succ_le_succ_iff] at hm
      by_cases h : p c = true
      · simp only [collapseRuns, collapseRunsAux, h, if_pos]
        rw [collapseRunsAux_true_eq]
        apply List.chain'_cons'.2
        constructor
        · intro y hy
          intro hcon
          have hhd : p y = false := by
            cases hdw : (rest.dropWhile p).head? with
            | none =>
              cases hrest : rest.dropWhile p with
              | nil => rw [hrest] at hy; simp [collapseRunsAux] at hy
              | cons a as => rw [hrest] at hdw; simp at hdw
            | some d =>
              have hpd : p d = false := by
                have := List.head?_dropWhile_not p rest
                rw [hdw] at this
                exact this
              rw [head?_collapseRunsAux_false_eq p r _ ?_] at hy
              · rw [hdw] at hy
                have hdy : d = y := by injection hy
                exact hdy ▸ hpd
              · intro e he
                rw [hdw] at he
                have hde : d = e := by injection he
                exact hde ▸ hpd
          rw [hhd] at hcon
          exact absurd hcon.2 (by simp)
        · exact ih _ (le_trans ((List.dropWhile_sublist p).length_le) hm)
      · simp only [Bool.not_eq_true] at h
        simp only [collapseRuns, collapseRunsAux, h, Bool.false_eq_true, if_neg, not_false_iff]
        apply List.chain'_cons'.2
        refine ⟨fun y _ hcon => absurd hcon.1 (by simp [h]), ih rest hm⟩

theorem collapseRunsAux_id_of_noRun (p : Char → Bool) (r : Char) :
    ∀ l : Str, NoRun p l → (∀ c ∈ l, p c = true → c = r) → collapseRunsAux p r false l = l := by
  intro l
  induction l with
  | nil => intro _ _; rfl
  | cons c rest ih =>
    intro hnr hm
    by_cases h : p c = true
    · have hc : c = r := hm c (List.mem_cons_self _ _) h
      have hstep : collapseRunsAux p r false (c :: rest) = r :: collapseRunsAux p r true rest := by
        simp [collapseRunsAux, h]
      rw [hstep, collapseRunsAux_true_eq]
      have hrest : rest.dropWhile p = rest := by
        cases rest with
        | nil => rfl
        | cons d rs =>
          have hd : p d = false := by
            have := (List.chain'_cons'.1 hnr).1 d rfl
            by_contra hcon
            simp only [Bool.not_eq_false] at hcon
            exact this ⟨h, hcon⟩
          simp [List.dropWhile_cons, hd]
      rw [hrest, ih hnr.tail (fun e he hp => hm e (List.mem_cons_of_mem _ he) hp), hc]
    · simp only [Bool.not_eq_true] at h
      simp only [collapseRunsAux, h, Bool.false_eq_true, if_neg, not_false_iff]
      rw [ih hnr.tail (fun e he hp => hm e (List.mem_cons_of_mem _ he) hp)]

theorem noRun_reverse (p : Char → Bool) (l : Str) (h : NoRun p l) : NoRun p l.reverse := by
  rw [NoRun, List.chain'_reverse]
  exact h.imp fun a b hab hcon => hab ⟨hcon.2, hcon.1⟩

theorem noRun_of_append_left (p : Char → Bool) (l m : Str) (h : NoRun p (l ++ m)) : NoRun p l :=
  List.Chain'.left_of_append h

theorem noRun_of_append_right (p : Char → Bool) (l m : Str) (h : NoRun p (l ++ m)) : NoRun p m :=
  List.Chain'.right_of_append h

theorem noRun_take (p : Char → Bool) (n : Nat) (l : Str) (h : NoRun p l) : NoRun p (l.take n) := by
  obtain ⟨t, ht⟩ := List.take_prefix n l
  have h2 : NoRun p (List.take n l ++ t) := by rw [ht]; exact h
  exact noRun_of_append_left p _ t h2

theorem noRun_dropWhile (p q : Char → Bool) (l : Str) (h : NoRun p l) :
    NoRun p (l.dropWhile q) := by
  have := List.takeWhile_append_dropWhile q l
  exact noRun_of_append_right p _ _ (this ▸ h)

theorem noRun_stripEdges (p q : Char → Bool) (l : Str) (h : NoRun p l) :
    NoRun p (stripEdges q l) := by
  unfold stripEdges
  exact noRun_reverse p _ (noRun_dropWhile p q _ (noRun_reverse p _ (noRun_dropWhile p q _ h)))

theorem mem_stripEdges (q : Char → Bool) (l : Str) (c : Char) (h : c ∈ stripEdges q l) : c ∈ l := by
  unfold stripEdges at h
  rw [List.mem_reverse] at h
  have h1 := (List.dropWhile_sublist q).subset h
  rw [List.mem_reverse] at h1
  exact (List.dropWhile_sublist q).subset h1

theorem length_stripEdges_le (q : Char → Bool) (l : Str) :
    (stripEdges q l).length ≤ l.length := by
  unfold stripEdges
  rw [List.length_reverse]
  calc (((l.dropWhile q).reverse.dropWhile q)).length
      ≤ (l.dropWhile q).reverse.length := (List.dropWhile_sublist q).length_le
    _ = (l.dropWhile q).length := List.length_reverse _
    _ ≤ l.length := (List.dropWhile_sublist q).length_le

theorem head?_stripEdges (q : Char → Bool) (l : Str) (c : Char)
    (h : (stripEdges q l).head? = some c) : q c = false := by
  unfold stripEdges at h
  rw [List.head?_reverse] at h
  set u := l.dropWhile q with hu
  set v := u.reverse.dropWhile q with hv
  have hsplit : u.reverse.takeWhile q ++ v = u.reverse := List.takeWhile_append_dropWhile q u.reverse
  have hvne : v ≠ [] := by
    intro hcon
    rw [hcon] at h; simp at h
  have hlast : v.getLast? = u.reverse.getLast? := by
    rw [← hsplit, List.getLast?_append]
    cases hval : v.getLast? with
    | none => exact absurd (List.getLast?_eq_none_iff.1 hval) hvne
    | some d => simp
  rw [hlast, List.getLast?_reverse] at h
  cases hucase : u with
  | nil => rw [hucase] at h; simp at h
  | cons d rest =>
    rw [hucase] at h
    simp only [List.head?_cons, Option.some.injEq] at h
    subst h
    have := List.head?_dropWhile_not q l
    rw [← hu, hucase] at this
    simpa using this

theorem getLast?_stripEdges (q : Char → Bool) (l : Str) (c : Char)
    (h : (stripEdges q l).getLast? = some c) : q c = false := by
  unfold stripEdges at h
  rw [List.getLast?_reverse] at h
  cases hvcase : (l.dropWhile q).reverse.dropWhile q with
  | nil => rw [hvcase] at h; simp at h
  | cons d rest =>
    rw [hvcase] at h
    simp only [List.head?_cons, Option.some.injEq] at h
    subst h
    have := List.head?_dropWhile_not q (l.dropWhile q).reverse
    rw [hvcase] at this
    simpa using this

theorem stripEdges_id (q : Char → Bool) (l : Str)
    (h1 : ∀ c, l.head? = some c → q c = false)
    (h2 : ∀ c, l.getLast? = some c → q c = false) : stripEdges q l = l := by
  unfold stripEdges
  have hd : l.dropWhile q = l := by
    cases l with
    | nil => rfl
    | cons c rest =>
      have := h1 c rfl
      simp [List.dropWhile_cons, this]
  rw [hd]
  have hr : l.reverse.dropWhile q = l.reverse := by
    cases hc : l.reverse with
    | nil => rfl
    | cons c rest =>
      have hcl : l.getLast? = some c := by
        rw [← List.head?_reverse, hc]; rfl
      have := h2 c hcl
      rw [List.dropWhile_cons, this]
      simp
  rw [hr, List.reverse_reverse]

theorem mem_sanitize (x : Str) (n : Nat) (c : Char) (hc : c ∈ sanitize_filename x n) :
    c = '.' ∨ c = '_' ∨ (c ∈ x ∧ illegalChar c = false ∧ pySpace c = false) := by
  unfold sanitize_filename at hc
  have h4 := mem_stripEdges stripSet _ c hc
  have h3 := (List.take_sublist n _).subset h4
  rcases mem_collapseRunsAux isDot '.' false _ c h3 with h | ⟨h2, hd⟩
  · exact Or.inl h
  · rcases mem_collapseRunsAux pySpace '_' false _ c h2 with h | ⟨h1, hs⟩
    · exact Or.inr (Or.inl h)
    · rw [List.mem_filter] at h1
      refine Or.inr (Or.inr ⟨h1.1, ?_, hs⟩)
      have := h1.2
      simpa using this

theorem sanitize_no_illegal (x : Str) (n : Nat) (c : Char) (hc : c ∈ sanitize_filename x n) :
    illegalChar c = false := by
  rcases mem_sanitize x n c hc with h | h | h
  · subst h; decide
  · subst h; decide
  · exact h.2.1

theorem sanitize_no_space (x : Str) (n : Nat) (c : Char) (hc : c ∈ sanitize_filename x n) :
    pySpace c = false := by
  rcases mem_sanitize x n c hc with h | h | h
  · subst h; decide
  · subst h; decide
  · exact h.2.2

theorem sanitize_noRun_dot (x : Str) (n : Nat) : NoRun isDot (sanitize_filename x n) := by
  unfold sanitize_filename
  exact noRun_stripEdges isDot stripSet _ (noRun_take isDot n _ (noRun_collapseRuns isDot '.' _))

theorem sanitize_length_le (x : Str) (n : Nat) : (sanitize_filename x n).length ≤ n := by
  unfold sanitize_filename
  exact le_trans (length_stripEdges_le stripSet _) (List.length_take_le n _)

theorem sanitize_head?_not_strip (x : Str) (n : Nat) (c : Char)
    (hc : (sanitize_filename x n).head? = some c) : stripSet c = false := by
  unfold sanitize_filename at hc
  exact head?_stripEdges stripSet _ c hc

theorem sanitize_getLast?_not_strip (x : Str) (n : Nat) (c : Char)
    (hc : (sanitize_filename x n).getLast? = some c) : stripSet c = false := by
  unfold sanitize_filename at hc
  exact getLast?_stripEdges stripSet _ c hc

theorem sanitize_idem (x : Str) (n : Nat) :
    sanitize_filename (sanitize_filename x n) n = sanitize_filename x n := by
  have key : ∀ y : Str, (∀ c ∈ y, illegalChar c = false) → (∀ c ∈ y, pySpace c = false) →
      NoRun isDot y → y.length ≤ n → (∀ c, y.head? = some c → stripSet c = false) →
      (∀ c, y.getLast? = some c → stripSet c = false) → sanitize_filename y n = y := by
    intro y hill hsp hnr hlen hh hl
    unfold sanitize_filename
    rw [List.filter_eq_self.2 (fun a ha => by simp [hill a ha])]
    rw [show collapseRuns pySpace '_' y = y from
      collapseRunsAux_id_of_not_p pySpace '_' false y hsp]
    rw [show collapseRuns isDot '.' y = y from
      collapseRunsAux_id_of_noRun isDot '.' y hnr (fun c _ hd => by simpa [isDot] using hd)]
    rw [List.take_of_length_le hlen]
    exact stripEdges_id stripSet y hh hl
  exact key _ (sanitize_no_illegal x n) (sanitize_no_space x n) (sanitize_noRun_dot x n)
    (sanitize_length_le x n) (sanitize_head?_not_strip x n) (sanitize_getLast?_not_strip x n)

/-- Claim C6: `sanitize_filename` with the default maximum length 240 is
idempotent, its result contains none of the characters `<>:"/\\|?*`, and
the result has no leading or trailing `.` or `_`. -/
theorem claim_C6_sanitize_idempotent_and_clean (x : Str) :
    sanitize_filename (sanitize_filename x 240) 240 = sanitize_filename x 240 ∧
    (sanitize_filename x 240).all (fun c => !illegalChar c) = true ∧
    stripSet ((sanitize_filename x 240).headD 'a') = false ∧
    stripSet ((sanitize_filename x 240).getLastD 'a') = false := by
  refine ⟨sanitize_idem x 240, ?_, ?_, ?_⟩
  · apply List.all_eq_true.2
    intro c hc
    simp [sanitize_no_illegal x 240 c hc]
  · rw [List.headD_eq_head?]
    cases hy : (sanitize_filename x 240).head? with
    | none => decide
    | some c => exact sanitize_head?_not_strip x 240 c hy
  · rw [List.getLastD_eq_getLast?]
    cases hy : (sanitize_filename x 240).getLast? with
    | none => decide
    | some c => exact sanitize_getLast?_not_strip x 240 c hy

/-! ### Unique-name allocation (`FilenameManager.ensure_unique`, claim C7) -/

/-- Decimal digits of `n`, least significant first, with explicit fuel;
`fuel ≥ n` always suffices. -/
def pyNatDigitsAux : Nat → Nat → List Nat
  | 0, _ => []
  | fuel+1, n => if n = 0 then [] else n % 10 :: pyNatDigitsAux fuel (n / 10)

/-- Python's decimal rendering `f"{n}"` of a natural number. -/
def pyNatStr (n : Nat) : Str :=
  if n = 0 then ['0'] else ((pyNatDigitsAux n n).map Nat.digitChar).reverse

/-- `base.rsplit('.', 1)` when `base` contains a dot: the text before the
last dot and the text after it.  `none` when there is no dot, matching the
single-element result of `rsplit`. -/
def rsplitDot (l : Str) : Option (Str × Str) :=
  if '.' ∈ l then
    some ((((l.reverse.dropWhile (fun c => !(c == '.'))).drop 1).reverse),
          (l.reverse.takeWhile (fun c => !(c == '.'))).reverse)
  else none

/-- Candidate filename tried by `ensure_unique`: the unchanged name for
`k = 0`; for `k ≥ 1`, `_k` is inserted before the extension (the text
after the last dot) when the base has one, else appended. -/
def euCandidate (base : Str) (k : Nat) : Str :=
  if k = 0 then base
  else
    match rsplitDot base with
    | some (pre, suf) => pre ++ '_' :: (pyNatStr k ++ '.' :: suf)
    | none => base ++ '_' :: pyNatStr k

/-- The `while filename in used_names` loop of `ensure_unique`, with
explicit fuel; fuel `used.length + 1` always suffices because the
candidates are pairwise distinct. -/
def euLoop (base : Str) (used : List Str) : Nat → Nat → Str
  | k, 0 => euCandidate base k
  | k, fuel+1 =>
    if euCandidate base k ∈ used then euLoop base used (k+1) fuel else euCandidate base k

/-- `FilenameManager.ensure_unique`: return the first candidate not in the
used-name set and add it to the set. -/
def ensure_unique (filename : Str) (used : List Str) : Str × List Str :=
  let r := euLoop filename used 0 (used.length + 1)
  (r, r :: used)

/-- N successive `ensure_unique` calls with one base name against one
shared, initially empty used-name set: the list of results (in call
order) and the final used-name set. -/
def iterEnsure (base : Str) : Nat → List Str × List Str
  | 0 => ([], [])
  | n+1 =>
    let p := iterEnsure base n
    let q := ensure_unique base p.2
    (p.1 ++ [q.1], q.2)

example : (ensure_unique (hstr "a.b") [hstr "a.b"]).1 = hstr "a_1.b" := by decide
example : (iterEnsure (hstr "doc") 3).1 = [hstr "doc", hstr "doc_1", hstr "doc_2"] := by decide

theorem pyNatDigitsAux_fuel : ∀ (f g n : Nat), n ≤ f → n ≤ g →
    pyNatDigitsAux f n = pyNatDigitsAux g n := by
  intro f
  induction f with
  | zero =>
    intro g n hf _
    have : n = 0 := Nat.le_zero.1 hf
    subst this
    cases g <;> simp [pyNatDigitsAux]
  | succ f ih =>
    intro g n hf hg
    by_cases hn : n = 0
    · subst hn
      cases g <;> simp [pyNatDigitsAux]
    · cases g with
      | zero => exact absurd (Nat.le_zero.1 hg) hn
      | succ g =>
        simp only [pyNatDigitsAux, hn, if_neg, not_false_iff]
        have hdiv : n / 10 < n := Nat.div_lt_self (Nat.pos_of_ne_zero hn) (by norm_num)
        rw [ih g (n / 10) (by omega) (by omega)]

theorem pyNatDigitsAux_lt10 : ∀ (f n : Nat), ∀ d ∈ pyNatDigitsAux f n, d < 10 := by
  intro f
  induction f with
  | zero => intro n d hd; simp [pyNatDigitsAux] at hd
  | succ f ih =>
    intro n d hd
    by_cases hn : n = 0
    · subst hn; simp [pyNatDigitsAux] at hd
    · simp only [pyNatDigitsAux, hn, if_neg, not_false_iff, List.mem_cons] at hd
      rcases hd with h | h
      · subst h; exact Nat.mod_lt _ (by norm_num)
      · exact ih _ d h

theorem pyNatDigitsAux_ne_nil (f n : Nat) (hn : n ≠ 0) (hf : f ≠ 0) :
    pyNatDigitsAux f n ≠ [] := by
  cases f with
  | zero => exact absurd rfl hf
  | succ f => simp [pyNatDigitsAux, hn]

theorem pyNatDigits_inj : ∀ m n : Nat, pyNatDigitsAux m m = pyNatDigitsAux n n → m = n := by
  intro m
  induction m using Nat.strong_induction_on with
  | _ m ihm =>
    intro n h
    by_cases hm : m = 0
    · subst hm
      by_contra hn
      have hne : n ≠ 0 := fun hc => hn hc.symm
      exact pyNatDigitsAux_ne_nil n n hne hne (by simpa [pyNatDigitsAux] using h.symm)
    · by_cases hn : n = 0
      · subst hn
        exact absurd h (by simpa [pyNatDigitsAux] using pyNatDigitsAux_ne_nil m m hm hm)
      · obtain ⟨m', rfl⟩ := Nat.exists_eq_succ_of_ne_zero hm
        obtain ⟨n', rfl⟩ := Nat.exists_eq_succ_of_ne_zero hn
        simp only [pyNatDigitsAux, hm, hn, if_neg, not_false_iff] at h
        have hmod : (m' + 1) % 10 = (n' + 1) % 10 := (List.cons.injEq _ _ _ _ ▸ h).1
        have htail : pyNatDigitsAux m' ((m' + 1) / 10) = pyNatDigitsAux n' ((n' + 1) / 10) :=
          (List.cons.injEq _ _ _ _ ▸ h).2
        have hm10 : (m' + 1) / 10 ≤ m' := by omega
        have hn10 : (n' + 1) / 10 ≤ n' := by omega
        have htail2 : pyNatDigitsAux ((m' + 1) / 10) ((m' + 1) / 10) =
            pyNatDigitsAux ((n' + 1) / 10) ((n' + 1) / 10) := by
          rw [pyNatDigitsAux_fuel ((m' + 1) / 10) m' ((m' + 1) / 10) le_rfl hm10,
            htail, pyNatDigitsAux_fuel n' ((n' + 1) / 10) ((n' + 1) / 10) hn10 le_rfl]
        have hdiv : (m' + 1) / 10 = (n' + 1) / 10 :=
          ihm ((m' + 1) / 10) (by omega) _ htail2
        omega

theorem map_digitChar_toNat (a : Nat) (ha : a < 10) : (Nat.digitChar a).toNat = 48 + a := by
  interval_cases a <;> rfl

theorem digitChar_inj10 (a b : Nat) (ha : a < 10) (hb : b < 10)
    (h : Nat.digitChar a = Nat.digitChar b) : a = b := by
  have := map_digitChar_toNat a ha
  rw [h, map_digitChar_toNat b hb] at this
  omega

theorem map_digitChar_inj : ∀ (l1 l2 : List Nat), (∀ d ∈ l1, d < 10) → (∀ d ∈ l2, d < 10) →
    l1.map Nat.digitChar = l2.map Nat.digitChar → l1 = l2 := by
  intro l1
  induction l1 with
  | nil =>
    intro l2 _ _ h
    cases l2 with
    | nil => rfl
    | cons b bs => simp at h
  | cons a as ih =>
    intro l2 h1 h2 h
    cases l2 with
    | nil => simp at h
    | cons b bs =>
      simp only [List.map_cons, List.cons.injEq] at h
      have hab : a = b := digitChar_inj10 a b (h1 a (List.mem_cons_self _ _))
        (h2 b (List.mem_cons_self _ _)) h.1
      rw [hab, ih bs (fun d hd => h1 d (List.mem_cons_of_mem _ hd))
        (fun d hd => h2 d (List.mem_cons_of_mem _ hd)) h.2]

theorem pyNatStr_ne_nil (n : Nat) : pyNatStr n ≠ [] := by
  unfold pyNatStr
  by_cases hn : n = 0
  · subst hn; simp
  · simp only [hn, if_neg, not_false_iff]
    intro h
    rw [List.reverse_eq_nil_iff, List.map_eq_nil_iff] at h
    exact pyNatDigitsAux_ne_nil n n hn hn h

theorem pyNatStr_inj (m n : Nat) (h : pyNatStr m = pyNatStr n) : m = n := by
  unfold pyNatStr at h
  by_cases hm : m = 0 <;> by_cases hn : n = 0
  · omega
  · exfalso
    simp only [hm, if_pos, hn, if_neg, not_false_iff] at h
    have : pyNatDigitsAux n n = [0] := by
      apply map_digitChar_inj _ _ (pyNatDigitsAux_lt10 n n) (by intro d hd; simp at hd; omega)
      have := List.reverse_inj.2 h.symm
      simp only [List.reverse_reverse] at this
      rw [this]
      rfl
    obtain ⟨n', rfl⟩ := Nat.exists_eq_succ_of_ne_zero hn
    simp only [pyNatDigitsAux, hn, if_neg, not_false_iff] at this
    have h1 : (n' + 1) % 10 = 0 := (List.cons.injEq _ _ _ _ ▸ this).1
    have h2 : pyNatDigitsAux n' ((n' + 1) / 10) = [] := (List.cons.injEq _ _ _ _ ▸ this).2
    have h3 : (n' + 1) / 10 ≠ 0 := by omega
    have h4 : n' ≠ 0 := by omega
    exact pyNatDigitsAux_ne_nil n' ((n' + 1) / 10) h3 h4 h2
  · exfalso
    simp only [hn, if_pos, hm, if_neg, not_false_iff] at h
    have : pyNatDigitsAux m m = [0] := by
      apply map_digitChar_inj _ _ (pyNatDigitsAux_lt10 m m) (by intro d hd; simp at hd; omega)
      have := List.reverse_inj.2 h
      simp only [List.reverse_reverse] at this
      rw [this]
      rfl
    obtain ⟨m', rfl⟩ := Nat.exists_eq_succ_of_ne_zero hm
    simp only [pyNatDigitsAux, hm, if_neg, not_false_iff] at this
    have h1 : (m' + 1) % 10 = 0 := (List.cons.injEq _ _ _ _ ▸ this).1
    have h2 : pyNatDigitsAux m' ((m' + 1) / 10) = [] := (List.cons.injEq _ _ _ _ ▸ this).2
    have h3 : (m' + 1) / 10 ≠ 0 := by omega
    have h4 : m' ≠ 0 := by omega
    exact pyNatDigitsAux_ne_nil m' ((m' + 1) / 10) h3 h4 h2
  · simp only [hm, hn, if_neg, not_false_iff] at h
    exact pyNatDigits_inj m n
      (map_digitChar_inj _ _ (pyNatDigitsAux_lt10 m m) (pyNatDigitsAux_lt10 n n)
        (List.reverse_inj.1 h))

theorem rsplitDot_eq (l pre suf : Str) (h : rsplitDot l = some (pre, suf)) :
    l = pre ++ '.' :: suf := by
  unfold rsplitDot at h
  by_cases hd : '.' ∈ l
  · simp only [hd, if_pos, Option.some.injEq, Prod.mk.injEq] at h
    obtain ⟨hpre, hsuf⟩ := h
    set q : Char → Bool := fun c => !(c == '.') with hq
    have hdrop : ∃ t, l.reverse.dropWhile q = '.' :: t := by
      cases hcase : l.reverse.dropWhile q with
      | nil =>
        exfalso
        have hsplit := List.takeWhile_append_dropWhile q l.reverse
        rw [hcase, List.append_nil] at hsplit
        have hmem : '.' ∈ l.reverse := List.mem_reverse.2 hd
        rw [← hsplit] at hmem
        have := List.mem_takeWhile_imp hmem
        simp [hq] at this
      | cons c t =>
        have hh := List.head?_dropWhile_not q l.reverse
        rw [hcase] at hh
        simp only [List.head?_cons] at hh
        have hc : c = '.' := by
          simp only [hq] at hh
          have : (c == '.') = true := by
            by_contra hcon
            simp only [Bool.not_eq_true] at hcon
            rw [hcon] at hh
            simp at hh
          exact eq_of_beq this
        exact ⟨t, hc ▸ rfl⟩
    obtain ⟨t, ht⟩ := hdrop
    have hsplit := List.takeWhile_append_dropWhile q l.reverse
    rw [ht] at hsplit
    have hl : l = (('.' :: t).reverse ++ (l.reverse.takeWhile q).reverse).reverse.reverse := by
      rw [List.reverse_reverse, ← List.reverse_append, hsplit, List.reverse_reverse]
    rw [List.reverse_reverse] at hl
    rw [← hpre, ← hsuf]
    rw [ht]
    simp only [List.drop_one, List.tail_cons]
    conv_lhs => rw [hl]
    simp [List.reverse_cons]
  · simp [hd] at h

theorem euCandidate_length (base : Str) (k : Nat) (hk : k ≠ 0) :
    (euCandidate base k).length = base.length + 1 + (pyNatStr k).length := by
  unfold euCandidate
  simp only [hk, if_neg, not_false_iff]
  cases hr : rsplitDot base with
  | none =>
    simp only [List.length_append, List.length_cons]
    omega
  | some ps =>
    obtain ⟨pre, suf⟩ := ps
    have := rsplitDot_eq base pre suf hr
    simp only [this, List.length_append, List.length_cons]
    omega

theorem euCandidate_inj (base : Str) (j k : Nat) (h : euCandidate base j = euCandidate base k) :
    j = k := by
  by_cases hj : j = 0 <;> by_cases hk : k = 0
  · omega
  · exfalso
    have hjl : euCandidate base j = base := by simp [euCandidate, hj]
    have := euCandidate_length base k hk
    rw [← h, hjl] at this
    have := pyNatStr_ne_nil k
    have hlen : (pyNatStr k).length ≠ 0 := fun hc => this (List.length_eq_zero.1 hc)
    omega
  · exfalso
    have hkl : euCandidate base k = base := by simp [euCandidate, hk]
    have := euCandidate_length base j hj
    rw [h, hkl] at this
    have := pyNatStr_ne_nil j
    have hlen : (pyNatStr j).length ≠ 0 := fun hc => this (List.length_eq_zero.1 hc)
    omega
  · unfold euCandidate at h
    simp only [hj, hk, if_neg, not_false_iff] at h
    cases hr : rsplitDot base with
    | none =>
      rw [hr] at h
      have h2 := List.append_cancel_left h
      have h3 : pyNatStr j = pyNatStr k := by
        have := List.cons.injEq '_' (pyNatStr j) '_' (pyNatStr k) ▸ h2
        exact this.2
      exact pyNatStr_inj j k h3
    | some ps =>
      obtain ⟨pre, suf⟩ := ps
      rw [hr] at h
      have h2 := List.append_cancel_left h
      have h3 : pyNatStr j ++ '.' :: suf = pyNatStr k ++ '.' :: suf := by
        have := List.cons.injEq '_' (pyNatStr j ++ '.' :: suf) '_' (pyNatStr k ++ '.' :: suf) ▸ h2
        exact this.2
      exact pyNatStr_inj j k (List.append_cancel_right h3)

theorem euLoop_eq (base : Str) (used : List Str) :
    ∀ (m k fuel : Nat), (∀ j, j < m → euCandidate base (k + j) ∈ used) →
    euCandidate base (k + m) ∉ used → m < fuel →
    euLoop base used k fuel = euCandidate base (k + m) := by
  intro m
  induction m with
  | zero =>
    intro k fuel _ hfree hfuel
    cases fuel with
    | zero => omega
    | succ fuel =>
      simp only [Nat.add_zero] at hfree
      simp [euLoop, hfree]
  | succ m ih =>
    intro k fuel hmem hfree hfuel
    cases fuel with
    | zero => omega
    | succ fuel =>
      have h0 : euCandidate base k ∈ used := by
        have := hmem 0 (Nat.succ_pos m)
        simpa using this
      simp only [euLoop, h0, if_pos]
      have := ih (k + 1) fuel
        (fun j hj => by
          have := hmem (j + 1) (by omega)
          have harith : k + (j + 1) = k + 1 + j := by omega
          rwa [harith] at this)
        (by
          have harith : k + 1 + m = k + (m + 1) := by omega
          rwa [harith])
        (by omega)
      rw [this]
      congr 1
      omega

theorem iterEnsure_closed (base : Str) : ∀ n : Nat,
    iterEnsure base n = ((List.range n).map (euCandidate base),
      ((List.range n).reverse.map (euCandidate base))) := by
  intro n
  induction n with
  | zero => rfl
  | succ n ih =>
    have hlen : (((List.range n).reverse.map (euCandidate base))).length = n := by
      simp
    have hmem : ∀ j, j < n → euCandidate base j ∈ (List.range n).reverse.map (euCandidate base) := by
      intro j hj
      rw [List.mem_map]
      exact ⟨j, List.mem_reverse.2 (List.mem_range.2 hj), rfl⟩
    have hfree : euCandidate base n ∉ (List.range n).reverse.map (euCandidate base) := by
      intro hcon
      rw [List.mem_map] at hcon
      obtain ⟨j, hj, hje⟩ := hcon
      have : j = n := euCandidate_inj base j n hje
      rw [List.mem_reverse, List.mem_range] at hj
      omega
    have hloop : euLoop base ((List.range n).reverse.map (euCandidate base)) 0 (n + 1) =
        euCandidate base n := by
      have := euLoop_eq base ((List.range n).reverse.map (euCandidate base)) n 0 (n + 1)
        (fun j hj => by simpa using hmem j hj) (by simpa using hfree) (by omega)
      simpa using this
    show (let p := iterEnsure base n
          let q := ensure_unique base p.2
          (p.1 ++ [q.1], q.2)) = _
    rw [ih]
    simp only [ensure_unique, hlen, hloop]
    rw [List.range_succ]
    simp [List.reverse_append]

/-- Claim C7: for every N ≥ 1 and every base name, N successive
`ensure_unique` calls with the same base name against one shared,
initially empty used-name set return N pairwise-distinct names, exactly
one of which equals the unmodified base name, and every returned name is
in the set afterwards. -/
theorem claim_C7_ensure_unique_distinct (base : Str) (N : Nat) (hN : 1 ≤ N) :
    (iterEnsure base N).1.Nodup ∧
    (iterEnsure base N).1.filter (fun r => decide (r = base)) = [base] ∧
    ∀ r ∈ (iterEnsure base N).1, r ∈ (iterEnsure base N).2 := by
  rw [iterEnsure_closed]
  refine ⟨?_, ?_, ?_⟩
  · exact List.Nodup.map (fun j k h => euCandidate_inj base j k h) (List.nodup_range N)
  · show List.filter (fun r => decide (r = base)) ((List.range N).map (euCandidate base)) = [base]
    rw [List.filter_map]
    have hcongr : ∀ j ∈ List.range N,
        ((fun r => decide (r = base)) ∘ euCandidate base) j = decide (j = 0) := by
      intro j _
      simp only [Function.comp_apply]
      by_cases hj : j = 0
      · subst hj; simp [euCandidate]
      · have hne : euCandidate base j ≠ base := by
          intro hcon
          exact hj (euCandidate_inj base j 0 (by simpa [euCandidate] using hcon))
        simp [hne, hj]
    rw [List.filter_congr hcongr]
    obtain ⟨N', rfl⟩ := Nat.exists_eq_succ_of_ne_zero (by omega : N ≠ 0)
    rw [List.range_succ_eq_map, List.filter_cons]
    have hnil : List.filter (fun j => decide (j = 0)) (List.map Nat.succ (List.range N')) = [] := by
      rw [List.filter_eq_nil_iff]
      intro a ha
      rw [List.mem_map] at ha
      obtain ⟨j, _, rfl⟩ := ha
      simp
    rw [hnil]
    simp [euCandidate]
  · intro r hr
    simp only [List.mem_map] at hr ⊢
    obtain ⟨j, hj, hje⟩ := hr
    exact ⟨j, List.mem_reverse.2 hj, hje⟩

/-- Witness for claim C7 at base "doc" and N = 2. -/
theorem claim_C7_witness :
    (iterEnsure (hstr "doc") 2).1.Nodup ∧
    (iterEnsure (hstr "doc") 2).1.filter (fun r => decide (r = hstr "doc")) = [hstr "doc"] ∧
    ∀ r ∈ (iterEnsure (hstr "doc") 2).1, r ∈ (iterEnsure (hstr "doc") 2).2 :=
  claim_C7_ensure_unique_distinct (hstr "doc") 2 (by decide)

/-! ### Style resolution (`StyleProcessor._process_styles`, claim C4) -/

/-- Worker for Python `str.split()`: `cur` holds the current chunk in
reverse. Whitespace runs separate chunks and produce no empty chunks. -/
def pySplitAux : Str → Str → List Str
  | cur, [] => if cur = [] then [] else [cur.reverse]
  | cur, c :: rest =>
    if pySpace c then
      if cur = [] then pySplitAux [] rest else cur.reverse :: pySplitAux [] rest
    else pySplitAux (c :: cur) rest

/-- Python `str.split()` with no arguments. -/
def pySplit (l : Str) : List Str := pySplitAux [] l

/-- Value of a non-empty all-digit token, else `none`. -/
def digitsVal (l : Str) : Option Nat :=
  if l ≠ [] ∧ l.all (fun c => c.isDigit) then
    some (l.foldl (fun acc c => acc * 10 + (c.toNat - 48)) 0)
  else none

/-- Python `int(s)` on a whitespace-free token: optional sign, then at
least one decimal digit; `none` models the raised `ValueError` (digit
group underscores are elided from the model). -/
def pyInt (l : Str) : Option Int :=
  match l with
  | '-' :: rest => (digitsVal rest).map (fun n => -(n : Int))
  | '+' :: rest => (digitsVal rest).map (fun n => (n : Int))
  | _ => (digitsVal l).map (fun n => (n : Int))

/-- The test `style.name.startswith('Heading ')`. -/
def startsWithHeading (s : Str) : Bool := (hstr "Heading ").isPrefixOf s

/-- The parse `int(name.split()[-1])`, with the
`except (ValueError, IndexError)` guard collapsed into `Option`. -/
def headingNameLevel (s : Str) : Option Int :=
  match (pySplit s).getLast? with
  | none => none
  | some tok => pyInt tok

/-- A paragraph style as seen by `StyleProcessor._process_styles`:
whether `style.type == WD_STYLE_TYPE.PARAGRAPH`, the style name, and the
base style's name when `style.base_style` exists and is truthy. -/
structure PyStyle where
  isParagraphStyle : Bool
  name : Str
  baseStyleName : Option Str
deriving Repr, DecidableEq

/-- The `heading_levels` dict: newest binding first; Python dict
assignment overwrites, so lookup takes the most recent binding. -/
abbrev HeadingMap : Type := List (Str × Int)

/-- Dict assignment `heading_levels[name] = level`. -/
def mapInsert (m : HeadingMap) (k : Str) (v : Int) : HeadingMap := (k, v) :: m

/-- Dict lookup `heading_levels.get(name)`. -/
def mapGet (m : HeadingMap) (k : Str) : Option Int :=
  (m.find? (fun e => e.1 == k)).map (fun e => e.2)

/-- `StyleProcessor._process_styles`: for each paragraph style, a name
starting with `"Heading "` whose last token parses as an integer is
recorded directly; otherwise a base style named that way contributes its
parsed level.  A name starting with `"Heading "` whose parse fails is
skipped outright (the `continue` in the first branch), base style
notwithstanding. -/
def process_styles (styles : List PyStyle) : HeadingMap :=
  styles.foldl (fun m st =>
    if !st.isParagraphStyle then m
    else if startsWithHeading st.name then
      match headingNameLevel st.name with
      | some lvl => mapInsert m st.name lvl
      | none => m
    else
      match st.baseStyleName with
      | some b =>
        if startsWithHeading b then
          match headingNameLevel b with
          | some lvl => mapInsert m st.name lvl
          | none => m
        else m
      | none => m) []

/-- `StyleProcessor.get_heading_level`: `None` when the paragraph has no
style or no style name, else the dict lookup. -/
def get_heading_level (m : HeadingMap) (styleName : Option Str) : Option Int :=
  match styleName with
  | none => none
  | some nm => if nm = [] then none else mapGet m nm

example : mapGet (process_styles [⟨true, hstr "Heading 2", none⟩]) (hstr "Heading 2") = some 2 := by
  decide
example : mapGet (process_styles [⟨true, hstr "My Style", some (hstr "Heading 3")⟩])
    (hstr "My Style") = some 3 := by decide

/-- Counterexample to claim C4: the paragraph style "Heading A" does not
match "Heading <integer>" but declares base style "Heading 2"; the claim
requires it to be mapped to level 2, yet `process_styles` leaves it out of
the heading map entirely (its name starts with "Heading ", so the failed
integer parse hits `continue` before the base style is consulted). -/
theorem claim_C4_counterexample :
    mapGet (process_styles
      [⟨true, hstr "Heading 2", none⟩, ⟨true, hstr "Heading A", some (hstr "Heading 2")⟩])
      (hstr "Heading A") = none ∧ (none : Option Int) ≠ some 2 := by
  constructor
  · decide
  · decide

/-- Claim C4 as amended: a paragraph-scoped style inherits level `k` from
a base style whose name parses as "Heading k" only when its own name does
not start with `"Heading "`; a style whose name starts with `"Heading "`
but fails the integer parse (such as "Heading A") is skipped even when its
base style is a valid heading style. -/
theorem claim_C4_amended_inheritance :
    (∀ (nm b : Str) (k : Int), startsWithHeading nm = false → startsWithHeading b = true →
      headingNameLevel b = some k →
      mapGet (process_styles [⟨true, nm, some b⟩]) nm = some k) ∧
    mapGet (process_styles [⟨true, hstr "Heading A", some (hstr "Heading 2")⟩])
      (hstr "Heading A") = none := by
  constructor
  · intro nm b k h1 h2 h3
    simp only [process_styles, List.foldl_cons, List.foldl_nil, h1, h2, h3, Bool.not_true,
      Bool.false_eq_true, if_false, if_pos, if_true, Bool.not_false]
    simp [mapGet, mapInsert]
  · decide

/-- Witness for the amended claim C4 at the style "CustomHead" based on
"Heading 2". -/
theorem claim_C4_amended_witness :
    mapGet (process_styles [⟨true, hstr "CustomHead", some (hstr "Heading 2")⟩])
      (hstr "CustomHead") = some 2 :=
  claim_C4_amended_inheritance.1 (hstr "CustomHead") (hstr "Heading 2") 2
    (by decide) (by decide) (by decide)

/-! ### Documents, cleaning and partitioning (`DocxSplitter`) -/

/-- A paragraph as used by the splitter: the style name (`none` when
the paragraph has no style or the style has no name, the two falsy cases
of `get_heading_level`) and the paragraph text. -/
structure Para where
  styleName : Option Str
  text : Str
deriving Repr, DecidableEq

/-- Python's `not text.strip()`: no non-whitespace character. -/
def wsOnly (l : Str) : Bool := l.all pySpace

/-- One section of the split document (the source's `class Section`). -/
structure DocSection where
  title : Str
  safe_title : Str
  level : Int
  content : List Para
  start_index : Nat
  end_index : Option Int
deriving Repr, DecidableEq

/-- Reading the shared cancellation flag: `T = some k` means the flag is
set from the `k`-th flag read onwards (the UI sets it once and it stays
set); `T = none` means it is never set during the run; `t` counts the
reads performed so far. -/
def flagAt (T : Option Nat) (t : Nat) : Bool :=
  match T with
  | none => false
  | some k => decide (k ≤ t)

/-- Scan phase of `_clean_document`: collect indices of headings strictly
above the target level or with whitespace-only text, plus the directly
following paragraph when it is whitespace-only (`rest.head?` is
`doc.paragraphs[idx + 1]`).  Every 100 paragraphs the cancellation flag
is read; a set flag aborts the scan.  Returns (marked indices, flag
reads, aborted). -/
def cleanScan (m : HeadingMap) (tl : Int) (T : Option Nat) :
    List Para → Nat → Nat → List Nat × Nat × Bool
  | [], _, t => ([], t, false)
  | p :: rest, idx, t =>
    if decide (idx % 100 = 0) && flagAt T t then ([], t + 1, true)
    else
      let t1 := if idx % 100 = 0 then t + 1 else t
      let tail := cleanScan m tl T rest (idx + 1) t1
      match get_heading_level m p.styleName with
      | some lvl =>
        if (decide (lvl < tl) && decide (lvl ≠ tl)) || wsOnly p.text then
          let extra : List Nat :=
            match rest.head? with
            | some q => if wsOnly q.text then [idx + 1] else []
            | none => []
          (idx :: (extra ++ tail.1), tail.2)
        else tail
      | none => tail

/-- Descending insertion sort: `sorted(paragraphs_to_remove, reverse=True)`. -/
def insertDesc (x : Nat) : List Nat → List Nat
  | [] => [x]
  | y :: ys => if x ≥ y then x :: y :: ys else y :: insertDesc x ys

/-- Sort a list of indices in descending order. -/
def sortDesc (l : List Nat) : List Nat := l.foldr insertDesc []

/-- Removal phase of `_clean_document`: for each marked index in
descending order, remove the paragraph now at that position if it is in
range.  `doc.paragraphs` re-evaluates after each removal, which is what
makes a duplicated mark remove a paragraph that was never marked. -/
def applyRemovals (paras : List Para) (idxs : List Nat) : List Para :=
  idxs.foldl (fun acc i => if i < acc.length then acc.eraseIdx i else acc) paras

/-- `DocxSplitter._clean_document`.  When the scan observes the
cancellation flag the document is returned unchanged (the collected
indices are discarded). -/
def clean_document (m : HeadingMap) (tl : Int) (paras : List Para) (T : Option Nat) (t0 : Nat) :
    List Para × Nat × Bool :=
  let s := cleanScan m tl T paras 0 t0
  if s.2.2 then (paras, s.2.1, true)
  else (applyRemovals paras (sortDesc s.1), s.2.1, false)

/-- Apply `f` to the section with the given `start_index` inside the
list: the model of mutating the section object held both by
`current_section` and by `self.sections` (start indices are unique
within a run, making them an object identity). -/
def updateSec (ss : List DocSection) (id0 : Nat) (f : DocSection → DocSection) :
    List DocSection :=
  ss.map (fun s => if s.start_index = id0 then f s else s)

/-- `self.sections.remove(section)`: drop the first element with the
given identity.  (After a completed cleaning pass the section being
removed is always present, so `list.remove`'s `ValueError` branch is
unreachable.) -/
def removeSec (ss : List DocSection) (id0 : Nat) : List DocSection :=
  ss.eraseP (fun s => s.start_index == id0)

/-- `any(p.text.strip() for p in content)`. -/
def hasContent (content : List Para) : Bool := content.any (fun p => !wsOnly p.text)

/-- Closing the open section at a new target-level heading or at the end
of the document: fix `end_index` and drop the section from the result
list when none of its content has non-whitespace text. -/
def closeSection (ss : List DocSection) (cur : DocSection) (endIdx : Int) :
    List DocSection × DocSection :=
  let c := { cur with end_index := some endIdx }
  let ss1 := updateSec ss c.start_index (fun s => { s with end_index := some endIdx })
  if hasContent c.content then (ss1, c) else (removeSec ss1 c.start_index, c)

/-- Body of the `parse_sections` loop for one paragraph.  A target-level
heading closes the open section and, when its text is not
whitespace-only, opens a new one with a sanitized unique title; any
other paragraph is appended to the open section's content (both in the
result list and in the `current_section` reference).  Returns the new
(sections, open section, used titles). -/
def parseStep (m : HeadingMap) (tl : Int) (p : Para) (idx : Nat)
    (secs : List DocSection) (cur : Option DocSection) (used : List Str) :
    List DocSection × Option DocSection × List Str :=
  if get_heading_level m p.styleName == some tl then
    let st : List DocSection × Option DocSection :=
      match cur with
      | some c =>
        let q := closeSection secs c ((idx : Int) - 1)
        (q.1, some q.2)
      | none => (secs, none)
    if !wsOnly p.text then
      let safe := sanitize_filename p.text 240
      let u := ensure_unique safe used
      let s : DocSection := ⟨p.text, u.1, tl, [], idx, none⟩
      (st.1 ++ [s], some s, u.2)
    else (st.1, st.2, used)
  else
    match cur with
    | some c =>
      (updateSec secs c.start_index (fun s => { s with content := s.content ++ [p] }),
        some { c with content := c.content ++ [p] }, used)
    | none => (secs, cur, used)

/-- The recursion of the partition loop over the paragraph list, reading
the flag every 50 paragraphs and applying `parseStep` per paragraph. -/
def parseLoop (m : HeadingMap) (tl : Int) (T : Option Nat) :
    List Para → Nat → Nat → List DocSection → Option DocSection → List Str →
    List DocSection × Option DocSection × List Str × Nat × Bool
  | [], _, t, secs, cur, used => (secs, cur, used, t, false)
  | p :: rest, idx, t, secs, cur, used =>
    if decide (idx % 50 = 0) && flagAt T t then ([], cur, used, t + 1, true)
    else
      let st := parseStep m tl p idx secs cur used
      parseLoop m tl T rest (idx + 1) (if idx % 50 = 0 then t + 1 else t) st.1 st.2.1 st.2.2

/-- `DocxSplitter.parse_sections`: clean the document, run the partition
loop, close the final open section, and make one last flag read that
clears the result when the flag is set.  Returns (sections, used titles,
flag reads performed). -/
def parse_sections (m : HeadingMap) (tl : Int) (paras : List Para) (T : Option Nat) (t0 : Nat) :
    List DocSection × List Str × Nat :=
  let c := clean_document m tl paras T t0
  match parseLoop m tl T c.1 0 c.2.1 [] none [] with
  | (secs, cur, used, t, aborted) =>
    if aborted then ([], used, t)
    else
      let secs2 :=
        match cur with
        | some cu => (closeSection secs cu ((c.1.length : Int) - 1)).1
        | none => secs
      if flagAt T t then ([], used, t + 1) else (secs2, used, t + 1)

/-- The heading map of a document whose styles are the single built-in
style "Heading 3". -/
def hmap3 : HeadingMap := process_styles [⟨true, hstr "Heading 3", none⟩]

example : hmap3 = [(hstr "Heading 3", 3)] := by decide

/-- The claim C1 scenario at concrete bodies: heading-3 paragraphs "A",
"" and "B", each followed by one non-empty body paragraph. -/
def docC1 : List Para :=
  [⟨some (hstr "Heading 3"), hstr "A"⟩, ⟨none, hstr "x"⟩,
   ⟨some (hstr "Heading 3"), hstr ""⟩, ⟨none, hstr "y"⟩,
   ⟨some (hstr "Heading 3"), hstr "B"⟩, ⟨none, hstr "z"⟩]

example : (parse_sections hmap3 3 docC1 none 0).1.map
    (fun s => (s.title, s.safe_title, s.level, s.content)) =
    [(hstr "A", hstr "A", 3, [⟨none, hstr "x"⟩, ⟨none, hstr "y"⟩]),
     (hstr "B", hstr "B", 3, [⟨none, hstr "z"⟩])] := by decide

example : clean_document hmap3 3 docC1 none 0 =
    ([⟨some (hstr "Heading 3"), hstr "A"⟩, ⟨none, hstr "x"⟩,
      ⟨none, hstr "y"⟩,
      ⟨some (hstr "Heading 3"), hstr "B"⟩, ⟨none, hstr "z"⟩], 1, false) := by decide

/-- The claim C3 failing input: two consecutive empty level-3 headings
followed by a non-empty body paragraph. -/
def docC3 : List Para :=
  [⟨some (hstr "Heading 3"), hstr ""⟩, ⟨some (hstr "Heading 3"), hstr ""⟩,
   ⟨none, hstr "body"⟩]

/-- Claim C3 against the code (code bug): on a document with two
consecutive empty level-3 headings followed by the non-empty body
paragraph "body", the scan marks indices `[0, 1, 1]` — index 2 (the body
paragraph) is never marked — yet the removal pass deletes all three
paragraphs: the duplicated mark `1` is applied a second time after the
list has shrunk, landing on the unmarked "body" paragraph. -/
theorem claim_C3_clean_document_removes_unmarked :
    cleanScan hmap3 3 none docC3 0 0 = ([0, 1, 1], 1, false) ∧
    (2 : Nat) ∉ (cleanScan hmap3 3 none docC3 0 0).1 ∧
    clean_document hmap3 3 docC3 none 0 = ([], 1, false) := by
  refine ⟨by decide, by decide, by decide⟩

/-! ### Cancellation determinism (claim C8) -/

theorem flagAt_none (t : Nat) : flagAt none t = false := rfl

theorem cleanScan_none_no_abort (m : HeadingMap) (tl : Int) :
    ∀ (l : List Para) (idx t : Nat), (cleanScan m tl none l idx t).2.2 = false := by
  intro l
  induction l with
  | nil => intro idx t; rfl
  | cons p rest ih =>
    intro idx t
    simp only [cleanScan, flagAt_none, Bool.and_false, Bool.false_eq_true, if_false]
    cases get_heading_level m p.styleName with
    | none => exact ih (idx + 1) _
    | some lvl =>
      by_cases hc : ((decide (lvl < tl) && decide (lvl ≠ tl)) || wsOnly p.text) = true
      · simp only [hc, if_true]
        exact ih (idx + 1) _
      · simp only [if_neg hc]
        exact ih (idx + 1) _


theorem cleanScan_cons_step (m : HeadingMap) (tl : Int) (T : Option Nat) (p : Para)
    (rest : List Para) (idx t : Nat)
    (hf : (decide (idx % 100 = 0) && flagAt T t) = false) :
    cleanScan m tl T (p :: rest) idx t =
      (match get_heading_level m p.styleName with
       | some lvl =>
         if (decide (lvl < tl) && decide (lvl ≠ tl)) || wsOnly p.text then
           (idx :: ((match rest.head? with
             | some q => if wsOnly q.text then [idx + 1] else []
             | none => []) ++
             (cleanScan m tl T rest (idx + 1) (if idx % 100 = 0 then t + 1 else t)).1),
             (cleanScan m tl T rest (idx + 1) (if idx % 100 = 0 then t + 1 else t)).2)
         else cleanScan m tl T rest (idx + 1) (if idx % 100 = 0 then t + 1 else t)
       | none => cleanScan m tl T rest (idx + 1) (if idx % 100 = 0 then t + 1 else t)) := by
  simp only [cleanScan, hf, Bool.false_eq_true, if_false]

theorem cleanScan_t_mono (m : HeadingMap) (tl : Int) (T : Option Nat) :
    ∀ (l : List Para) (idx t : Nat), t ≤ (cleanScan m tl T l idx t).2.1 := by
  intro l
  induction l with
  | nil => intro idx t; exact le_rfl
  | cons p rest ih =>
    intro idx t
    by_cases hf : (decide (idx % 100 = 0) && flagAt T t) = true
    · simp only [cleanScan, hf, if_true]
      omega
    · rw [cleanScan_cons_step m tl T p rest idx t (by simpa using hf)]
      have ht1 : t ≤ (if idx % 100 = 0 then t + 1 else t) := by
        by_cases h : idx % 100 = 0 <;> simp [h]
      have hih := ih (idx + 1) (if idx % 100 = 0 then t + 1 else t)
      cases hgl : get_heading_level m p.styleName with
      | none => exact le_trans ht1 hih
      | some lvl =>
        by_cases hc : ((decide (lvl < tl) && decide (lvl ≠ tl)) || wsOnly p.text) = true
        · simp only [hc, if_true]
          exact le_trans ht1 hih
        · simp only [if_neg hc]
          exact le_trans ht1 hih

theorem cleanScan_final_eq (m : HeadingMap) (tl : Int) (T : Option Nat) (p : Para)
    (rest : List Para) (idx t : Nat)
    (hf : (decide (idx % 100 = 0) && flagAt T t) = false) :
    (cleanScan m tl T (p :: rest) idx t).2.1 =
      (cleanScan m tl T rest (idx + 1) (if idx % 100 = 0 then t + 1 else t)).2.1 := by
  rw [cleanScan_cons_step m tl T p rest idx t hf]
  cases hgl : get_heading_level m p.styleName with
  | none => rfl
  | some lvl =>
    by_cases hc : ((decide (lvl < tl) && decide (lvl ≠ tl)) || wsOnly p.text) = true
    · simp only [hc, if_true]
    · simp only [if_neg hc]

theorem cleanScan_agree (m : HeadingMap) (tl : Int) (T : Nat) :
    ∀ (l : List Para) (idx t : Nat),
    (cleanScan m tl none l idx t).2.1 ≤ T →
    cleanScan m tl (some T) l idx t = cleanScan m tl none l idx t := by
  intro l
  induction l with
  | nil => intro idx t _; rfl
  | cons p rest ih =>
    intro idx t hT
    have hfnone : (decide (idx % 100 = 0) && flagAt none t) = false := by
      simp [flagAt_none]
    rw [cleanScan_final_eq m tl none p rest idx t hfnone] at hT
    have hflag : (decide (idx % 100 = 0) && flagAt (some T) t) = false := by
      by_cases h : idx % 100 = 0
      · have hmono := cleanScan_t_mono m tl none rest (idx + 1)
          (if idx % 100 = 0 then t + 1 else t)
        have h1 : t + 1 ≤ T := by
          have ht1 : t + 1 ≤ (if idx % 100 = 0 then t + 1 else t) := by simp [h]
          omega
        simp only [Bool.and_eq_false_iff]
        right
        simp only [flagAt, decide_eq_false_iff_not]
        omega
      · simp [h]
    rw [cleanScan_cons_step m tl (some T) p rest idx t hflag,
      cleanScan_cons_step m tl none p rest idx t hfnone,
      ih (idx + 1) (if idx % 100 = 0 then t + 1 else t) hT]

theorem parseLoop_cons_step (m : HeadingMap) (tl : Int) (T : Option Nat) (p : Para)
    (rest : List Para) (idx t : Nat) (secs : List DocSection) (cur : Option DocSection)
    (used : List Str) (hf : (decide (idx % 50 = 0) && flagAt T t) = false) :
    parseLoop m tl T (p :: rest) idx t secs cur used =
      parseLoop m tl T rest (idx + 1) (if idx % 50 = 0 then t + 1 else t)
        (parseStep m tl p idx secs cur used).1
        (parseStep m tl p idx secs cur used).2.1
        (parseStep m tl p idx secs cur used).2.2 := by
  simp only [parseLoop, hf, Bool.false_eq_true, if_false]

theorem parseLoop_none_no_abort (m : HeadingMap) (tl : Int) :
    ∀ (l : List Para) (idx t : Nat) (secs : List DocSection) (cur : Option DocSection)
    (used : List Str), (parseLoop m tl none l idx t secs cur used).2.2.2.2 = false := by
  intro l
  induction l with
  | nil => intro idx t secs cur used; rfl
  | cons p rest ih =>
    intro idx t secs cur used
    rw [parseLoop_cons_step m tl none p rest idx t secs cur used (by simp [flagAt_none])]
    exact ih _ _ _ _ _

theorem parseLoop_t_mono (m : HeadingMap) (tl : Int) (T : Option Nat) :
    ∀ (l : List Para) (idx t : Nat) (secs : List DocSection) (cur : Option DocSection)
    (used : List Str), t ≤ (parseLoop m tl T l idx t secs cur used).2.2.2.1 := by
  intro l
  induction l with
  | nil => intro idx t secs cur used; exact le_rfl
  | cons p rest ih =>
    intro idx t secs cur used
    by_cases hf : (decide (idx % 50 = 0) && flagAt T t) = true
    · simp only [parseLoop, hf, if_true]
      omega
    · rw [parseLoop_cons_step m tl T p rest idx t secs cur used (by simpa using hf)]
      have ht1 : t ≤ (if idx % 50 = 0 then t + 1 else t) := by
        by_cases h : idx % 50 = 0 <;> simp [h]
      exact le_trans ht1 (ih _ _ _ _ _)

theorem parseLoop_agree (m : HeadingMap) (tl : Int) (T : Nat) :
    ∀ (l : List Para) (idx t : Nat) (secs : List DocSection) (cur : Option DocSection)
    (used : List Str),
    (parseLoop m tl none l idx t secs cur used).2.2.2.1 ≤ T →
    parseLoop m tl (some T) l idx t secs cur used = parseLoop m tl none l idx t secs cur used := by
  intro l
  induction l with
  | nil => intro idx t secs cur used _; rfl
  | cons p rest ih =>
    intro idx t secs cur used hT
    have hfnone : (decide (idx % 50 = 0) && flagAt none t) = false := by simp [flagAt_none]
    rw [parseLoop_cons_step m tl none p rest idx t secs cur used hfnone] at hT
    have hflag : (decide (idx % 50 = 0) && flagAt (some T) t) = false := by
      by_cases h : idx % 50 = 0
      · have hmono := parseLoop_t_mono m tl none rest (idx + 1)
          (if idx % 50 = 0 then t + 1 else t) (parseStep m tl p idx secs cur used).1
          (parseStep m tl p idx secs cur used).2.1 (parseStep m tl p idx secs cur used).2.2
        have h1 : t + 1 ≤ T := by
          have ht1 : t + 1 ≤ (if idx % 50 = 0 then t + 1 else t) := by simp [h]
          omega
        simp only [Bool.and_eq_false_iff]
        right
        simp only [flagAt, decide_eq_false_iff_not]
        omega
      · simp [h]
    rw [parseLoop_cons_step m tl (some T) p rest idx t secs cur used hflag,
      parseLoop_cons_step m tl none p rest idx t secs cur used hfnone,
      ih _ _ _ _ _ hT]

theorem clean_document_none_no_abort (m : HeadingMap) (tl : Int) (paras : List Para) (t0 : Nat) :
    (clean_document m tl paras none t0).2.2 = false := by
  simp only [clean_document]
  rw [cleanScan_none_no_abort m tl paras 0 t0]
  simp

theorem clean_document_agree (m : HeadingMap) (tl : Int) (paras : List Para) (T : Nat)
    (h : (clean_document m tl paras none 0).2.1 ≤ T) :
    clean_document m tl paras (some T) 0 = clean_document m tl paras none 0 := by
  have hs : (cleanScan m tl none paras 0 0).2.1 ≤ T := by
    simp only [clean_document] at h
    rw [cleanScan_none_no_abort m tl paras 0 0] at h
    simpa using h
  simp only [clean_document]
  rw [cleanScan_agree m tl T paras 0 0 hs]

theorem parse_sections_none_reads (m : HeadingMap) (tl : Int) (paras : List Para) :
    (parse_sections m tl paras none 0).2.2 =
      (parseLoop m tl none (clean_document m tl paras none 0).1 0
        (clean_document m tl paras none 0).2.1 [] none []).2.2.2.1 + 1 := by
  simp only [parse_sections]
  rcases hr : parseLoop m tl none (clean_document m tl paras none 0).1 0
      (clean_document m tl paras none 0).2.1 [] none [] with ⟨secs, cur, used, t, aborted⟩
  have hab : aborted = false := by
    have := parseLoop_none_no_abort m tl (clean_document m tl paras none 0).1 0
      (clean_document m tl paras none 0).2.1 [] none []
    rw [hr] at this
    exact this
  subst hab
  simp only [flagAt_none, Bool.false_eq_true, if_false]

theorem parse_sections_agree (m : HeadingMap) (tl : Int) (paras : List Para) (T : Nat)
    (h : (parse_sections m tl paras none 0).2.2 ≤ T) :
    parse_sections m tl paras (some T) 0 = parse_sections m tl paras none 0 := by
  rw [parse_sections_none_reads m tl paras] at h
  have hloopmono := parseLoop_t_mono m tl none (clean_document m tl paras none 0).1 0
    (clean_document m tl paras none 0).2.1 [] none []
  have hclean : (clean_document m tl paras none 0).2.1 ≤ T := by omega
  have hloop : (parseLoop m tl none (clean_document m tl paras none 0).1 0
      (clean_document m tl paras none 0).2.1 [] none []).2.2.2.1 ≤ T := by omega
  simp only [parse_sections]
  rw [clean_document_agree m tl paras T hclean,
    parseLoop_agree m tl T _ _ _ _ _ _ hloop]
  rcases hr : parseLoop m tl none (clean_document m tl paras none 0).1 0
      (clean_document m tl paras none 0).2.1 [] none [] with ⟨secs, cur, used, t, aborted⟩
  have hab : aborted = false := by
    have := parseLoop_none_no_abort m tl (clean_document m tl paras none 0).1 0
      (clean_document m tl paras none 0).2.1 [] none []
    rw [hr] at this
    exact this
  subst hab
  rw [hr] at h
  simp only at h
  have hfl : flagAt (some T) t = false := by
    simp only [flagAt, decide_eq_false_iff_not]
    omega
  simp only [flagAt_none, hfl]

/-- Claim C8: (1) with the cancellation flag set no later than the end
of the cleaning phase — that is, before the partition loop's first
checkpoint is reached — `parse_sections` yields an empty section list
for every heading map, level and document; (2) a flag set only at or
after the run's total number of flag reads — that is, set only after
`parse_sections` has run to completion — leaves the produced result
(section list included) unchanged. -/
theorem claim_C8_cancellation_determinism :
    (∀ (m : HeadingMap) (tl : Int) (paras : List Para) (T : Nat),
      T ≤ (clean_document m tl paras (some T) 0).2.1 →
      (parse_sections m tl paras (some T) 0).1 = []) ∧
    (∀ (m : HeadingMap) (tl : Int) (paras : List Para) (T : Nat),
      (parse_sections m tl paras none 0).2.2 ≤ T →
      parse_sections m tl paras (some T) 0 = parse_sections m tl paras none 0) := by
  constructor
  · intro m tl paras T hT
    rcases hc : clean_document m tl paras (some T) 0 with ⟨cleaned, tc, ab⟩
    rw [hc] at hT
    simp only at hT
    have hfl : flagAt (some T) tc = true := by
      simp only [flagAt, decide_eq_true_eq]
      exact hT
    cases cleaned with
    | nil =>
      simp [parse_sections, hc, parseLoop, hfl]
    | cons p rest =>
      have hloop : parseLoop m tl (some T) (p :: rest) 0 tc [] none [] =
          ([], none, [], tc + 1, true) := by
        simp [parseLoop, hfl]
      simp [parse_sections, hc, hloop]
  · intro m tl paras T h
    exact parse_sections_agree m tl paras T h

/-- Witness for claim C8 on a two-paragraph document whose uncanceled
run performs 3 flag reads: a flag set after the cleaning phase's single
read but before the partition loop's first checkpoint (T = 1) clears
the section list, and a flag set only at read 3 leaves the run
unchanged. -/
theorem claim_C8_witness :
    1 ≤ (clean_document hmap3 3 [⟨some (hstr "Heading 3"), hstr "T"⟩, ⟨none, hstr "x"⟩]
        (some 1) 0).2.1 ∧
    (parse_sections hmap3 3 [⟨some (hstr "Heading 3"), hstr "T"⟩, ⟨none, hstr "x"⟩]
        (some 1) 0).1 = [] ∧
    (parse_sections hmap3 3 [⟨some (hstr "Heading 3"), hstr "T"⟩, ⟨none, hstr "x"⟩]
        none 0).2.2 ≤ 3 ∧
    parse_sections hmap3 3 [⟨some (hstr "Heading 3"), hstr "T"⟩, ⟨none, hstr "x"⟩] (some 3) 0 =
      parse_sections hmap3 3 [⟨some (hstr "Heading 3"), hstr "T"⟩, ⟨none, hstr "x"⟩] none 0 :=
  ⟨by decide,
   claim_C8_cancellation_determinism.1 hmap3 3
     [⟨some (hstr "Heading 3"), hstr "T"⟩, ⟨none, hstr "x"⟩] 1 (by decide),
   by decide,
   claim_C8_cancellation_determinism.2 hmap3 3
     [⟨some (hstr "Heading 3"), hstr "T"⟩, ⟨none, hstr "x"⟩] 3 (by decide)⟩

/-! ### Partition of documents with generic body runs (claims C1, C10) -/

theorem eraseIdx_at_len {α : Type} : ∀ (xs : List α) (y : α) (ys : List α),
    (xs ++ y :: ys).eraseIdx xs.length = xs ++ ys := by
  intro xs
  induction xs with
  | nil => intro y ys; rfl
  | cons x xs ih => intro y ys; simp [List.eraseIdx, ih]

theorem updateSec_comp (ss : List DocSection) (id0 : Nat) (f g : DocSection → DocSection)
    (hf : ∀ s, (f s).start_index = s.start_index) :
    updateSec (updateSec ss id0 f) id0 g = updateSec ss id0 (fun s => g (f s)) := by
  unfold updateSec
  rw [List.map_map]
  apply List.map_congr_left
  intro s _
  by_cases h : s.start_index = id0
  · have hfs : (f s).start_index = id0 := by rw [hf s, h]
    simp [Function.comp_apply, h, hfs]
  · simp [Function.comp_apply, h]

theorem cleanScan_skip_run (m : HeadingMap) (tl : Int) :
    ∀ (bs : List Para), (∀ p ∈ bs, get_heading_level m p.styleName = none) →
    ∀ (rest : List Para) (idx t : Nat), ∃ t2,
      cleanScan m tl none (bs ++ rest) idx t = cleanScan m tl none rest (idx + bs.length) t2 := by
  intro bs
  induction bs with
  | nil => intro _ rest idx t; exact ⟨t, by simp⟩
  | cons p bs ih =>
    intro hb rest idx t
    have hp : get_heading_level m p.styleName = none := hb p (List.mem_cons_self _ _)
    rw [List.cons_append,
      cleanScan_cons_step m tl none p (bs ++ rest) idx t (by simp [flagAt_none]), hp]
    obtain ⟨t2, ht⟩ := ih (fun q hq => hb q (List.mem_cons_of_mem _ hq)) rest (idx + 1)
      (if idx % 100 = 0 then t + 1 else t)
    refine ⟨t2, ?_⟩
    simp only [List.length_cons]
    rw [show idx + (bs.length + 1) = idx + 1 + bs.length from by omega]
    exact ht

theorem parseStep_body (m : HeadingMap) (tl : Int) (p : Para) (idx : Nat)
    (secs : List DocSection) (c : DocSection) (used : List Str)
    (hp : get_heading_level m p.styleName = none) :
    parseStep m tl p idx secs (some c) used =
      (updateSec secs c.start_index (fun s => { s with content := s.content ++ [p] }),
        some { c with content := c.content ++ [p] }, used) := by
  simp only [parseStep, hp]
  rfl

theorem parseLoop_body_run (m : HeadingMap) (tl : Int) :
    ∀ (bs : List Para), (∀ p ∈ bs, get_heading_level m p.styleName = none) →
    ∀ (rest : List Para) (idx t : Nat) (secs : List DocSection) (c : DocSection)
      (used : List Str),
    ∃ t2, parseLoop m tl none (bs ++ rest) idx t secs (some c) used =
      parseLoop m tl none rest (idx + bs.length) t2
        (updateSec secs c.start_index (fun s => { s with content := s.content ++ bs }))
        (some { c with content := c.content ++ bs }) used := by
  intro bs
  induction bs with
  | nil =>
    intro _ rest idx t secs c used
    refine ⟨t, ?_⟩
    have h1 : updateSec secs c.start_index (fun s => { s with content := s.content ++ [] }) =
        secs := by
      unfold updateSec
      have heq : (fun s : DocSection => if s.start_index = c.start_index then
          ({ s with content := s.content ++ [] } : DocSection) else s) = fun s => s := by
        funext s
        simp
      rw [heq]
      simp
    have h2 : ({ c with content := c.content ++ [] } : DocSection) = c := by simp
    rw [h1, h2]
    simp
  | cons p bs ih =>
    intro hb rest idx t secs c used
    have hp : get_heading_level m p.styleName = none := hb p (List.mem_cons_self _ _)
    rw [List.cons_append,
      parseLoop_cons_step m tl none p (bs ++ rest) idx t secs (some c) used
        (by simp [flagAt_none]),
      parseStep_body m tl p idx secs c used hp]
    obtain ⟨t2, ht⟩ := ih (fun q hq => hb q (List.mem_cons_of_mem _ hq)) rest (idx + 1)
      (if idx % 50 = 0 then t + 1 else t)
      (updateSec secs c.start_index (fun s => { s with content := s.content ++ [p] }))
      ({ c with content := c.content ++ [p] }) used
    refine ⟨t2, ?_⟩
    simp only [List.length_cons]
    rw [show idx + (bs.length + 1) = idx + 1 + bs.length from by omega]
    rw [ht]
    rw [updateSec_comp secs c.start_index
      (fun s => { s with content := s.content ++ [p] })
      (fun s => { s with content := s.content ++ bs })
      (fun s => rfl)]
    have hfun : (fun s : DocSection =>
        ({ ({ s with content := s.content ++ [p] } : DocSection) with
          content := ({ s with content := s.content ++ [p] } : DocSection).content ++ bs } :
            DocSection)) =
        (fun s : DocSection => { s with content := s.content ++ p :: bs }) := by
      funext s
      simp
    rw [hfun]
    have hc : ({ ({ c with content := c.content ++ [p] } : DocSection) with
        content := ({ c with content := c.content ++ [p] } : DocSection).content ++ bs } :
          DocSection) =
        { c with content := c.content ++ p :: bs } := by
      simp
    rw [hc]

theorem cleanScan_heading_skip (m : HeadingMap) (tl : Int) (T : Option Nat) (p : Para)
    (rest : List Para) (idx t : Nat) (lvl : Int)
    (hf : (decide (idx % 100 = 0) && flagAt T t) = false)
    (hp : get_heading_level m p.styleName = some lvl)
    (hcond : ((decide (lvl < tl) && decide (lvl ≠ tl)) || wsOnly p.text) = false) :
    cleanScan m tl T (p :: rest) idx t =
      cleanScan m tl T rest (idx + 1) (if idx % 100 = 0 then t + 1 else t) := by
  rw [cleanScan_cons_step m tl T p rest idx t hf, hp]
  simp only [hcond, Bool.false_eq_true, if_false]

theorem cleanScan_heading_mark (m : HeadingMap) (tl : Int) (T : Option Nat) (p : Para)
    (rest : List Para) (idx t : Nat) (lvl : Int)
    (hf : (decide (idx % 100 = 0) && flagAt T t) = false)
    (hp : get_heading_level m p.styleName = some lvl)
    (hcond : ((decide (lvl < tl) && decide (lvl ≠ tl)) || wsOnly p.text) = true) :
    cleanScan m tl T (p :: rest) idx t =
      (idx :: ((match rest.head? with
          | some q => if wsOnly q.text then [idx + 1] else []
          | none => []) ++
          (cleanScan m tl T rest (idx + 1) (if idx % 100 = 0 then t + 1 else t)).1),
        (cleanScan m tl T rest (idx + 1) (if idx % 100 = 0 then t + 1 else t)).2) := by
  rw [cleanScan_cons_step m tl T p rest idx t hf, hp]
  simp only [hcond, if_true]

theorem parseStep_heading_open_none (m : HeadingMap) (tl : Int) (p : Para) (idx : Nat)
    (secs : List DocSection) (used : List Str)
    (hp : (get_heading_level m p.styleName == some tl) = true)
    (hw : wsOnly p.text = false) :
    parseStep m tl p idx secs none used =
      (secs ++ [⟨p.text, (ensure_unique (sanitize_filename p.text 240) used).1, tl, [], idx,
        none⟩],
       some ⟨p.text, (ensure_unique (sanitize_filename p.text 240) used).1, tl, [], idx, none⟩,
       (ensure_unique (sanitize_filename p.text 240) used).2) := by
  simp only [parseStep, hp, if_true, hw, Bool.not_false]

theorem parseStep_heading_close_open (m : HeadingMap) (tl : Int) (p : Para) (idx : Nat)
    (secs : List DocSection) (c : DocSection) (used : List Str)
    (hp : (get_heading_level m p.styleName == some tl) = true)
    (hw : wsOnly p.text = false) :
    parseStep m tl p idx secs (some c) used =
      ((closeSection secs c ((idx : Int) - 1)).1 ++
        [⟨p.text, (ensure_unique (sanitize_filename p.text 240) used).1, tl, [], idx, none⟩],
       some ⟨p.text, (ensure_unique (sanitize_filename p.text 240) used).1, tl, [], idx, none⟩,
       (ensure_unique (sanitize_filename p.text 240) used).2) := by
  simp only [parseStep, hp, if_true, hw, Bool.not_false]

/-- A paragraph styled with the built-in "Heading 3" style. -/
def h3para (txt : Str) : Para := ⟨some (hstr "Heading 3"), txt⟩

/-- Counterexample to claim C1: on the document with level-3 headings
"A", "" and "B", each followed by one non-empty body paragraph,
`parse_sections` yields exactly the two sections "A" and "B", but the
body paragraph "y" that lies between the empty heading and the heading
"B" appears in section "A"'s content — the claim requires it to appear
in no section's content.  (The cleaning pass deletes the empty heading
before partitioning, so the following body text is absorbed by the
preceding section.) -/
theorem claim_C1_counterexample :
    (parse_sections hmap3 3 docC1 none 0).1.map
      (fun s => (s.title, s.safe_title, s.level, s.content)) =
      [(hstr "A", hstr "A", 3, [⟨none, hstr "x"⟩, ⟨none, hstr "y"⟩]),
       (hstr "B", hstr "B", 3, [⟨none, hstr "z"⟩])] ∧
    ∃ s ∈ (parse_sections hmap3 3 docC1 none 0).1,
      (⟨none, hstr "y"⟩ : Para) ∈ s.content := by
  constructor
  · decide
  · decide

theorem parseLoop_cons_step2 (m : HeadingMap) (tl : Int) (T : Option Nat) (p : Para)
    (rest : List Para) (idx t : Nat) (secs : List DocSection) (cur : Option DocSection)
    (used : List Str) (secs' : List DocSection) (cur' : Option DocSection) (used' : List Str)
    (hf : (decide (idx % 50 = 0) && flagAt T t) = false)
    (hstep : parseStep m tl p idx secs cur used = (secs', cur', used')) :
    parseLoop m tl T (p :: rest) idx t secs cur used =
      parseLoop m tl T rest (idx + 1) (if idx % 50 = 0 then t + 1 else t) secs' cur' used' := by
  rw [parseLoop_cons_step m tl T p rest idx t secs cur used hf, hstep]

theorem cleanScan_all_skip (m : HeadingMap) (tl : Int) (bs : List Para)
    (hbs : ∀ p ∈ bs, get_heading_level m p.styleName = none) (idx t : Nat) :
    ∃ t2, cleanScan m tl none bs idx t = ([], t2, false) := by
  obtain ⟨t2, h⟩ := cleanScan_skip_run m tl bs hbs [] idx t
  rw [List.append_nil] at h
  exact ⟨t2, h⟩

theorem parseLoop_all_body (m : HeadingMap) (tl : Int) (bs : List Para)
    (hbs : ∀ p ∈ bs, get_heading_level m p.styleName = none) (idx t : Nat)
    (secs : List DocSection) (c : DocSection) (used : List Str) :
    ∃ t2, parseLoop m tl none bs idx t secs (some c) used =
      (updateSec secs c.start_index (fun s => { s with content := s.content ++ bs }),
        some { c with content := c.content ++ bs }, used, t2, false) := by
  obtain ⟨t2, h⟩ := parseLoop_body_run m tl bs hbs [] idx t secs c used
  rw [List.append_nil] at h
  exact ⟨t2, h⟩

/-- Claim C1 as amended: for every document whose level-3 heading
paragraphs are "A", a whitespace-only heading, and "B" in that order,
each followed by non-empty body paragraphs, partitioning at level 3
produces exactly the two sections "A" and "B" and the whitespace-only
heading produces no section; however, the body text between the empty
heading and the next level-3 heading is appended to the preceding
section "A"'s content (the cleaning pass deletes the empty heading
before partitioning) rather than being dropped. -/
theorem claim_C1_amended_partition (b1 b2 b3 : List Para) (wtxt : Str)
    (h1 : b1 ≠ []) (h2 : b2 ≠ []) (h3 : b3 ≠ [])
    (hb1 : ∀ p ∈ b1, p.styleName = none ∧ wsOnly p.text = false)
    (hb2 : ∀ p ∈ b2, p.styleName = none ∧ wsOnly p.text = false)
    (hb3 : ∀ p ∈ b3, p.styleName = none ∧ wsOnly p.text = false)
    (hw : wsOnly wtxt = true) :
    (parse_sections hmap3 3
      (h3para (hstr "A") :: (b1 ++ (h3para wtxt :: (b2 ++ (h3para (hstr "B") :: b3)))))
      none 0).1.map (fun s => (s.title, s.safe_title, s.level, s.content)) =
    [(hstr "A", hstr "A", 3, b1 ++ b2), (hstr "B", hstr "B", 3, b3)] := by
  obtain ⟨q2, b2', rfl⟩ : ∃ q tail2, b2 = q :: tail2 := by
    cases b2 with
    | nil => exact absurd rfl h2
    | cons q tail2 => exact ⟨q, tail2, rfl⟩
  have hb1' : ∀ p ∈ b1, get_heading_level hmap3 p.styleName = none := by
    intro p hp; rw [(hb1 p hp).1]; rfl
  have hb2' : ∀ p ∈ q2 :: b2', get_heading_level hmap3 p.styleName = none := by
    intro p hp; rw [(hb2 p hp).1]; rfl
  have hb3' : ∀ p ∈ b3, get_heading_level hmap3 p.styleName = none := by
    intro p hp; rw [(hb3 p hp).1]; rfl
  have hb12' : ∀ p ∈ b1 ++ (q2 :: b2'), get_heading_level hmap3 p.styleName = none := by
    intro p hp
    rcases List.mem_append.1 hp with h | h
    · exact hb1' p h
    · exact hb2' p h
  have hlevW : get_heading_level hmap3 (h3para wtxt).styleName = some 3 := by
    show get_heading_level hmap3 (some (hstr "Heading 3")) = some 3
    decide
  obtain ⟨p1, hp1⟩ := List.exists_mem_of_ne_nil b1 h1
  obtain ⟨p3, hp3⟩ := List.exists_mem_of_ne_nil b3 h3
  have hhc12 : hasContent (b1 ++ (q2 :: b2')) = true :=
    List.any_eq_true.2 ⟨p1, List.mem_append_left _ hp1, by rw [(hb1 p1 hp1).2]; rfl⟩
  have hhc3 : hasContent b3 = true :=
    List.any_eq_true.2 ⟨p3, hp3, by rw [(hb3 p3 hp3).2]; rfl⟩
  -- the cleaning scan marks exactly the whitespace-only heading
  have hscan : ∃ tc, cleanScan hmap3 3 none
      (h3para (hstr "A") :: (b1 ++ (h3para wtxt :: ((q2 :: b2') ++ (h3para (hstr "B") :: b3)))))
      0 0 = ([1 + b1.length], tc, false) := by
    rw [cleanScan_heading_skip hmap3 3 none _ _ 0 0 3 (by simp [flagAt_none])
      (by decide) (by decide)]
    generalize (if 0 % 100 = 0 then 0 + 1 else 0) = t1
    obtain ⟨t2, hrun1⟩ := cleanScan_skip_run hmap3 3 b1 hb1'
      (h3para wtxt :: ((q2 :: b2') ++ (h3para (hstr "B") :: b3))) 1 t1
    rw [hrun1]
    rw [cleanScan_heading_mark hmap3 3 none _ _ (1 + b1.length) t2 3 (by simp [flagAt_none])
      hlevW (by simp [h3para, hw])]
    generalize (if (1 + b1.length) % 100 = 0 then t2 + 1 else t2) = t3
    have hhead : (((q2 :: b2') ++ (h3para (hstr "B") :: b3))).head? = some q2 := rfl
    rw [hhead]
    simp only [(hb2 q2 (List.mem_cons_self _ _)).2, Bool.false_eq_true, if_false,
      List.nil_append]
    obtain ⟨t4, hrun2⟩ := cleanScan_skip_run hmap3 3 (q2 :: b2') hb2'
      (h3para (hstr "B") :: b3) (1 + b1.length + 1) t3
    rw [hrun2]
    rw [cleanScan_heading_skip hmap3 3 none _ _ _ _ 3 (by simp [flagAt_none])
      (by decide) (by decide)]
    generalize (if (1 + b1.length + 1 + (q2 :: b2').length) % 100 = 0 then t4 + 1 else t4) = t5
    obtain ⟨t6, hrun3⟩ := cleanScan_all_skip hmap3 3 b3 hb3' _ t5
    rw [hrun3]
    exact ⟨t6, by simp⟩
  obtain ⟨tc, hscan⟩ := hscan
  -- cleaning removes exactly that heading
  have hclean : clean_document hmap3 3
      (h3para (hstr "A") :: (b1 ++ (h3para wtxt :: ((q2 :: b2') ++ (h3para (hstr "B") :: b3)))))
      none 0 =
      (h3para (hstr "A") :: (b1 ++ ((q2 :: b2') ++ (h3para (hstr "B") :: b3))), tc, false) := by
    simp only [clean_document, hscan]
    have hsort : sortDesc [1 + b1.length] = [1 + b1.length] := rfl
    have hlen : 1 + b1.length <
        (h3para (hstr "A") :: (b1 ++ (h3para wtxt ::
          ((q2 :: b2') ++ (h3para (hstr "B") :: b3))))).length := by
      simp [List.length_append, List.length_cons]
      omega
    simp only [hsort, applyRemovals, List.foldl_cons, List.foldl_nil, hlen, if_pos, if_true]
    have hassoc : (h3para (hstr "A") :: (b1 ++ (h3para wtxt ::
        ((q2 :: b2') ++ (h3para (hstr "B") :: b3))))) =
        (h3para (hstr "A") :: b1) ++ (h3para wtxt ::
          ((q2 :: b2') ++ (h3para (hstr "B") :: b3))) := by
      simp
    have hlen2 : (h3para (hstr "A") :: b1).length = 1 + b1.length := by
      simp [Nat.add_comm]
    rw [hassoc, ← hlen2, eraseIdx_at_len]
    simp
  -- the partition loop over the cleaned document
  have hloopAll : ∀ t0 : Nat, ∃ tf, parseLoop hmap3 3 none
      (h3para (hstr "A") :: ((b1 ++ (q2 :: b2')) ++ (h3para (hstr "B") :: b3))) 0 t0 [] none [] =
      ([⟨hstr "A", hstr "A", 3, b1 ++ (q2 :: b2'), 0,
          some (((1 + (b1 ++ (q2 :: b2')).length : Nat) : Int) - 1)⟩,
        ⟨hstr "B", hstr "B", 3, b3, 1 + (b1 ++ (q2 :: b2')).length, none⟩],
       some ⟨hstr "B", hstr "B", 3, b3, 1 + (b1 ++ (q2 :: b2')).length, none⟩,
       [hstr "B", hstr "A"], tf, false) := by
    intro t0
    rw [parseLoop_cons_step2 hmap3 3 none _ _ 0 t0 [] none []
      [⟨hstr "A", hstr "A", 3, [], 0, none⟩] (some ⟨hstr "A", hstr "A", 3, [], 0, none⟩)
      [hstr "A"] (by simp [flagAt_none]) (by decide)]
    generalize (if 0 % 50 = 0 then t0 + 1 else t0) = t1
    obtain ⟨t2, hrun1⟩ := parseLoop_body_run hmap3 3 (b1 ++ (q2 :: b2')) hb12'
      (h3para (hstr "B") :: b3) 1 t1 [⟨hstr "A", hstr "A", 3, [], 0, none⟩]
      ⟨hstr "A", hstr "A", 3, [], 0, none⟩ [hstr "A"]
    rw [hrun1]
    have hupd1 : updateSec [⟨hstr "A", hstr "A", 3, [], 0, none⟩]
        (⟨hstr "A", hstr "A", 3, [], 0, none⟩ : DocSection).start_index
        (fun s => { s with content := s.content ++ (b1 ++ (q2 :: b2')) }) =
        [⟨hstr "A", hstr "A", 3, b1 ++ (q2 :: b2'), 0, none⟩] := by
      simp [updateSec]
    have hcur1 : ({ (⟨hstr "A", hstr "A", 3, [], 0, none⟩ : DocSection) with
        content := (⟨hstr "A", hstr "A", 3, [], 0, none⟩ : DocSection).content ++
          (b1 ++ (q2 :: b2')) } : DocSection) =
        ⟨hstr "A", hstr "A", 3, b1 ++ (q2 :: b2'), 0, none⟩ := by
      simp
    rw [hupd1, hcur1]
    have hstepB : parseStep hmap3 3 (h3para (hstr "B")) (1 + (b1 ++ (q2 :: b2')).length)
        [⟨hstr "A", hstr "A", 3, b1 ++ (q2 :: b2'), 0, none⟩]
        (some ⟨hstr "A", hstr "A", 3, b1 ++ (q2 :: b2'), 0, none⟩) [hstr "A"] =
        ([⟨hstr "A", hstr "A", 3, b1 ++ (q2 :: b2'), 0,
            some (((1 + (b1 ++ (q2 :: b2')).length : Nat) : Int) - 1)⟩,
          ⟨hstr "B", hstr "B", 3, [], 1 + (b1 ++ (q2 :: b2')).length, none⟩],
         some ⟨hstr "B", hstr "B", 3, [], 1 + (b1 ++ (q2 :: b2')).length, none⟩,
         [hstr "B", hstr "A"]) := by
      rw [parseStep_heading_close_open hmap3 3 _ _ _ _ _ (by decide) (by decide)]
      have hclose : closeSection [⟨hstr "A", hstr "A", 3, b1 ++ (q2 :: b2'), 0, none⟩]
          ⟨hstr "A", hstr "A", 3, b1 ++ (q2 :: b2'), 0, none⟩
          (((1 + (b1 ++ (q2 :: b2')).length : Nat) : Int) - 1) =
          ([⟨hstr "A", hstr "A", 3, b1 ++ (q2 :: b2'), 0,
              some (((1 + (b1 ++ (q2 :: b2')).length : Nat) : Int) - 1)⟩],
           ⟨hstr "A", hstr "A", 3, b1 ++ (q2 :: b2'), 0,
              some (((1 + (b1 ++ (q2 :: b2')).length : Nat) : Int) - 1)⟩) := by
        simp only [closeSection, hhc12, if_true, updateSec]
        simp
      rw [hclose]
      rw [show ensure_unique (sanitize_filename (h3para (hstr "B")).text 240) [hstr "A"] =
        (hstr "B", [hstr "B", hstr "A"]) from by decide]
      simp [h3para]
    rw [parseLoop_cons_step2 hmap3 3 none _ _ _ _ _ _ _ _ _ _ (by simp [flagAt_none]) hstepB]
    generalize (if (1 + (b1 ++ (q2 :: b2')).length) % 50 = 0 then t2 + 1 else t2) = t3
    obtain ⟨t4, hrun2⟩ := parseLoop_all_body hmap3 3 b3 hb3' (1 + (b1 ++ (q2 :: b2')).length + 1)
      t3 [⟨hstr "A", hstr "A", 3, b1 ++ (q2 :: b2'), 0,
          some (((1 + (b1 ++ (q2 :: b2')).length : Nat) : Int) - 1)⟩,
        ⟨hstr "B", hstr "B", 3, [], 1 + (b1 ++ (q2 :: b2')).length, none⟩]
      ⟨hstr "B", hstr "B", 3, [], 1 + (b1 ++ (q2 :: b2')).length, none⟩ [hstr "B", hstr "A"]
    rw [hrun2]
    refine ⟨t4, ?_⟩
    have hne : ¬((0 : Nat) = 1 + (b1 ++ (q2 :: b2')).length) := by omega
    have hupd2 : updateSec [⟨hstr "A", hstr "A", 3, b1 ++ (q2 :: b2'), 0,
          some (((1 + (b1 ++ (q2 :: b2')).length : Nat) : Int) - 1)⟩,
        ⟨hstr "B", hstr "B", 3, [], 1 + (b1 ++ (q2 :: b2')).length, none⟩]
        (⟨hstr "B", hstr "B", 3, [], 1 + (b1 ++ (q2 :: b2')).length, none⟩ :
          DocSection).start_index
        (fun s => { s with content := s.content ++ b3 }) =
        [⟨hstr "A", hstr "A", 3, b1 ++ (q2 :: b2'), 0,
            some (((1 + (b1 ++ (q2 :: b2')).length : Nat) : Int) - 1)⟩,
          ⟨hstr "B", hstr "B", 3, b3, 1 + (b1 ++ (q2 :: b2')).length, none⟩] := by
      simp [updateSec]
      intro hcon
      exact absurd hcon (by omega)
    rw [hupd2]
    have hcur2 : ({ (⟨hstr "B", hstr "B", 3, [], 1 + (b1 ++ (q2 :: b2')).length, none⟩ :
        DocSection) with
        content := (⟨hstr "B", hstr "B", 3, [], 1 + (b1 ++ (q2 :: b2')).length, none⟩ :
          DocSection).content ++ b3 } : DocSection) =
        ⟨hstr "B", hstr "B", 3, b3, 1 + (b1 ++ (q2 :: b2')).length, none⟩ := by
      simp
    rw [hcur2]
  -- assemble `parse_sections`
  have hassocdoc : (h3para (hstr "A") :: (b1 ++ ((q2 :: b2') ++ (h3para (hstr "B") :: b3)))) =
      (h3para (hstr "A") :: ((b1 ++ (q2 :: b2')) ++ (h3para (hstr "B") :: b3))) := by
    simp [List.append_assoc]
  obtain ⟨tf, hloop⟩ := hloopAll tc
  simp only [parse_sections, hclean, hassocdoc, hloop]
  simp only [Bool.false_eq_true, if_false, flagAt_none]
  have hne : ¬((0 : Nat) = 1 + (b1 ++ (q2 :: b2')).length) := by omega
  have hcloseF : closeSection
      [⟨hstr "A", hstr "A", 3, b1 ++ (q2 :: b2'), 0,
          some (((1 + (b1 ++ (q2 :: b2')).length : Nat) : Int) - 1)⟩,
        ⟨hstr "B", hstr "B", 3, b3, 1 + (b1 ++ (q2 :: b2')).length, none⟩]
      ⟨hstr "B", hstr "B", 3, b3, 1 + (b1 ++ (q2 :: b2')).length, none⟩
      (((h3para (hstr "A") :: ((b1 ++ (q2 :: b2')) ++
        (h3para (hstr "B") :: b3))).length : Int) - 1) =
      ([⟨hstr "A", hstr "A", 3, b1 ++ (q2 :: b2'), 0,
          some (((1 + (b1 ++ (q2 :: b2')).length : Nat) : Int) - 1)⟩,
        ⟨hstr "B", hstr "B", 3, b3, 1 + (b1 ++ (q2 :: b2')).length,
          some (((h3para (hstr "A") :: ((b1 ++ (q2 :: b2')) ++
            (h3para (hstr "B") :: b3))).length : Int) - 1)⟩],
       ⟨hstr "B", hstr "B", 3, b3, 1 + (b1 ++ (q2 :: b2')).length,
          some (((h3para (hstr "A") :: ((b1 ++ (q2 :: b2')) ++
            (h3para (hstr "B") :: b3))).length : Int) - 1)⟩) := by
    simp only [closeSection, hhc3, if_true, updateSec]
    simp
    intro hcon
    omega
  rw [hcloseF]
  simp

/-- Witness for the amended claim C1 at one concrete body per heading. -/
theorem claim_C1_amended_witness :
    (parse_sections hmap3 3
      (h3para (hstr "A") :: ([⟨none, hstr "x"⟩] ++ (h3para (hstr " ") ::
        ([⟨none, hstr "y"⟩] ++ (h3para (hstr "B") :: [⟨none, hstr "z"⟩])))))
      none 0).1.map (fun s => (s.title, s.safe_title, s.level, s.content)) =
    [(hstr "A", hstr "A", 3, [⟨none, hstr "x"⟩] ++ [⟨none, hstr "y"⟩]),
     (hstr "B", hstr "B", 3, [⟨none, hstr "z"⟩])] :=
  claim_C1_amended_partition [⟨none, hstr "x"⟩] [⟨none, hstr "y"⟩] [⟨none, hstr "z"⟩]
    (hstr " ") (by decide) (by decide) (by decide) (by decide) (by decide) (by decide)
    (by decide)

/-- Claim C10: in a partition run whose first level-3 section (heading
`h1txt`) has only whitespace content and is discarded at close time, the
discarded section's sanitized title stays in the run's used-name set, so
a later section whose heading sanitizes to the same base name receives
the suffixed safe title `base_1` even though no retained section uses
the base name, and the base name is still in the used-name set at the
end of the run. -/
theorem claim_C10_discarded_section_reserves_name (h1txt h2txt w x : Str)
    (hh1 : wsOnly h1txt = false) (hh2 : wsOnly h2txt = false)
    (hwp : wsOnly w = true) (hx : wsOnly x = false)
    (hsan : sanitize_filename h1txt 240 = sanitize_filename h2txt 240)
    (hdot : '.' ∉ sanitize_filename h1txt 240) :
    (parse_sections hmap3 3 [h3para h1txt, ⟨none, w⟩, h3para h2txt, ⟨none, x⟩] none 0).1.map
      (fun s => (s.title, s.safe_title, s.content)) =
      [(h2txt, sanitize_filename h1txt 240 ++ hstr "_1", [⟨none, x⟩])] ∧
    sanitize_filename h1txt 240 ∈
      (parse_sections hmap3 3 [h3para h1txt, ⟨none, w⟩, h3para h2txt, ⟨none, x⟩] none 0).2.1 ∧
    sanitize_filename h1txt 240 ∉
      (parse_sections hmap3 3 [h3para h1txt, ⟨none, w⟩, h3para h2txt, ⟨none, x⟩]
        none 0).1.map (fun s => s.safe_title) := by
  have hlev1 : get_heading_level hmap3 (h3para h1txt).styleName = some 3 := by
    show get_heading_level hmap3 (some (hstr "Heading 3")) = some 3
    decide
  have hlev1b : (get_heading_level hmap3 (h3para h1txt).styleName == some 3) = true := by
    rw [hlev1]; rfl
  have hlev2 : get_heading_level hmap3 (h3para h2txt).styleName = some 3 := by
    show get_heading_level hmap3 (some (hstr "Heading 3")) = some 3
    decide
  have hlev2b : (get_heading_level hmap3 (h3para h2txt).styleName == some 3) = true := by
    rw [hlev2]; rfl
  have hw1 : wsOnly (h3para h1txt).text = false := hh1
  have hw2 : wsOnly (h3para h2txt).text = false := hh2
  have hwq : get_heading_level hmap3 ((⟨none, w⟩ : Para)).styleName = none := rfl
  have hxq : get_heading_level hmap3 ((⟨none, x⟩ : Para)).styleName = none := rfl
  have hfnone100 : ∀ (idx t : Nat), (decide (idx % 100 = 0) && flagAt none t) = false := by
    intro idx t; simp [flagAt_none]
  have hfnone50 : ∀ (idx t : Nat), (decide (idx % 50 = 0) && flagAt none t) = false := by
    intro idx t; simp [flagAt_none]
  have hpy : pyNatStr 1 = ['1'] := rfl
  have hrs : rsplitDot (sanitize_filename h1txt 240) = none := by
    simp [rsplitDot, hdot]
  have hc0 : euCandidate (sanitize_filename h1txt 240) 0 = sanitize_filename h1txt 240 := by
    simp [euCandidate]
  have hc1 : euCandidate (sanitize_filename h1txt 240) 1 =
      sanitize_filename h1txt 240 ++ hstr "_1" := by
    simp [euCandidate, hrs, hpy]
    rfl
  have hne1 : sanitize_filename h1txt 240 ++ hstr "_1" ≠ sanitize_filename h1txt 240 := by
    intro hcon
    have := congrArg List.length hcon
    simp [hstr] at this
  have heu0 : ensure_unique (sanitize_filename (h3para h1txt).text 240) [] =
      (sanitize_filename h1txt 240, [sanitize_filename h1txt 240]) := by
    show ensure_unique (sanitize_filename h1txt 240) [] = _
    simp [ensure_unique, euLoop, hc0]
  have hsan2 : sanitize_filename (h3para h2txt).text 240 = sanitize_filename h1txt 240 := by
    show sanitize_filename h2txt 240 = sanitize_filename h1txt 240
    exact hsan.symm
  have heu1 : ensure_unique (sanitize_filename (h3para h2txt).text 240)
      [sanitize_filename h1txt 240] =
      (sanitize_filename h1txt 240 ++ hstr "_1",
       [sanitize_filename h1txt 240 ++ hstr "_1", sanitize_filename h1txt 240]) := by
    rw [hsan2]
    simp [ensure_unique, euLoop, hc0, hc1, hne1]
  -- the cleaning pass removes nothing
  have hscan : ∃ tc, cleanScan hmap3 3 none
      [h3para h1txt, ⟨none, w⟩, h3para h2txt, ⟨none, x⟩] 0 0 = ([], tc, false) := by
    rw [cleanScan_heading_skip hmap3 3 none _ _ _ _ 3 (hfnone100 _ _) hlev1 (by simp [hw1])]
    rw [cleanScan_cons_step hmap3 3 none _ _ _ _ (hfnone100 _ _), hwq]
    rw [cleanScan_heading_skip hmap3 3 none _ _ _ _ 3 (hfnone100 _ _) hlev2 (by simp [hw2])]
    rw [cleanScan_cons_step hmap3 3 none _ _ _ _ (hfnone100 _ _), hxq]
    exact ⟨_, rfl⟩
  obtain ⟨tc, hscan⟩ := hscan
  have hclean : clean_document hmap3 3
      [h3para h1txt, ⟨none, w⟩, h3para h2txt, ⟨none, x⟩] none 0 =
      ([h3para h1txt, ⟨none, w⟩, h3para h2txt, ⟨none, x⟩], tc, false) := by
    simp only [clean_document, hscan]
    rfl
  -- the four steps of the partition loop
  have hstep1 : parseStep hmap3 3 (h3para h1txt) 0 [] none [] =
      ([⟨h1txt, sanitize_filename h1txt 240, 3, [], 0, none⟩],
       some ⟨h1txt, sanitize_filename h1txt 240, 3, [], 0, none⟩,
       [sanitize_filename h1txt 240]) := by
    rw [parseStep_heading_open_none hmap3 3 _ 0 [] [] hlev1b hw1, heu0]
    simp [h3para]
  have hstep2 : parseStep hmap3 3 (⟨none, w⟩ : Para) 1
      [⟨h1txt, sanitize_filename h1txt 240, 3, [], 0, none⟩]
      (some ⟨h1txt, sanitize_filename h1txt 240, 3, [], 0, none⟩)
      [sanitize_filename h1txt 240] =
      ([⟨h1txt, sanitize_filename h1txt 240, 3, [⟨none, w⟩], 0, none⟩],
       some ⟨h1txt, sanitize_filename h1txt 240, 3, [⟨none, w⟩], 0, none⟩,
       [sanitize_filename h1txt 240]) := by
    rw [parseStep_body hmap3 3 (⟨none, w⟩ : Para) 1 _ _ _ hwq]
    simp [updateSec]
  have hclose2 : closeSection [⟨h1txt, sanitize_filename h1txt 240, 3, [⟨none, w⟩], 0, none⟩]
      (⟨h1txt, sanitize_filename h1txt 240, 3, [⟨none, w⟩], 0, none⟩ : DocSection)
      (((2 : Nat) : Int) - 1) =
      ([], ⟨h1txt, sanitize_filename h1txt 240, 3, [⟨none, w⟩], 0,
        some (((2 : Nat) : Int) - 1)⟩) := by
    have hhc : hasContent [(⟨none, w⟩ : Para)] = false := by
      simp [hasContent, hwp]
    simp only [closeSection, hhc, Bool.false_eq_true, if_false, updateSec, removeSec]
    simp [List.eraseP]
  have hstep3 : parseStep hmap3 3 (h3para h2txt) 2
      [⟨h1txt, sanitize_filename h1txt 240, 3, [⟨none, w⟩], 0, none⟩]
      (some ⟨h1txt, sanitize_filename h1txt 240, 3, [⟨none, w⟩], 0, none⟩)
      [sanitize_filename h1txt 240] =
      ([⟨h2txt, sanitize_filename h1txt 240 ++ hstr "_1", 3, [], 2, none⟩],
       some ⟨h2txt, sanitize_filename h1txt 240 ++ hstr "_1", 3, [], 2, none⟩,
       [sanitize_filename h1txt 240 ++ hstr "_1", sanitize_filename h1txt 240]) := by
    rw [parseStep_heading_close_open hmap3 3 _ 2 _ _ _ hlev2b hw2]
    rw [hclose2, heu1]
    simp [h3para]
  have hstep4 : parseStep hmap3 3 (⟨none, x⟩ : Para) 3
      [⟨h2txt, sanitize_filename h1txt 240 ++ hstr "_1", 3, [], 2, none⟩]
      (some ⟨h2txt, sanitize_filename h1txt 240 ++ hstr "_1", 3, [], 2, none⟩)
      [sanitize_filename h1txt 240 ++ hstr "_1", sanitize_filename h1txt 240] =
      ([⟨h2txt, sanitize_filename h1txt 240 ++ hstr "_1", 3, [⟨none, x⟩], 2, none⟩],
       some ⟨h2txt, sanitize_filename h1txt 240 ++ hstr "_1", 3, [⟨none, x⟩], 2, none⟩,
       [sanitize_filename h1txt 240 ++ hstr "_1", sanitize_filename h1txt 240]) := by
    rw [parseStep_body hmap3 3 (⟨none, x⟩ : Para) 3 _ _ _ hxq]
    simp [updateSec]
  have hloop : ∃ tf, parseLoop hmap3 3 none
      [h3para h1txt, ⟨none, w⟩, h3para h2txt, ⟨none, x⟩] 0 tc [] none [] =
      ([⟨h2txt, sanitize_filename h1txt 240 ++ hstr "_1", 3, [⟨none, x⟩], 2, none⟩],
       some ⟨h2txt, sanitize_filename h1txt 240 ++ hstr "_1", 3, [⟨none, x⟩], 2, none⟩,
       [sanitize_filename h1txt 240 ++ hstr "_1", sanitize_filename h1txt 240], tf, false) := by
    rw [parseLoop_cons_step2 hmap3 3 none _ _ _ _ _ _ _ _ _ _ (hfnone50 _ _) hstep1]
    rw [show (0 : Nat) + 1 = 1 from rfl]
    rw [parseLoop_cons_step2 hmap3 3 none _ _ _ _ _ _ _ _ _ _ (hfnone50 _ _) hstep2]
    rw [show (1 : Nat) + 1 = 2 from rfl]
    rw [parseLoop_cons_step2 hmap3 3 none _ _ _ _ _ _ _ _ _ _ (hfnone50 _ _) hstep3]
    rw [show (2 : Nat) + 1 = 3 from rfl]
    rw [parseLoop_cons_step2 hmap3 3 none _ _ _ _ _ _ _ _ _ _ (hfnone50 _ _) hstep4]
    exact ⟨_, rfl⟩
  obtain ⟨tf, hloop⟩ := hloop
  have hcloseF : closeSection
      [⟨h2txt, sanitize_filename h1txt 240 ++ hstr "_1", 3, [⟨none, x⟩], 2, none⟩]
      (⟨h2txt, sanitize_filename h1txt 240 ++ hstr "_1", 3, [⟨none, x⟩], 2, none⟩ : DocSection)
      ((([h3para h1txt, ⟨none, w⟩, h3para h2txt, ⟨none, x⟩] : List Para).length : Int) - 1) =
      ([⟨h2txt, sanitize_filename h1txt 240 ++ hstr "_1", 3, [⟨none, x⟩], 2,
          some ((([h3para h1txt, ⟨none, w⟩, h3para h2txt, ⟨none, x⟩] :
            List Para).length : Int) - 1)⟩],
       ⟨h2txt, sanitize_filename h1txt 240 ++ hstr "_1", 3, [⟨none, x⟩], 2,
          some ((([h3para h1txt, ⟨none, w⟩, h3para h2txt, ⟨none, x⟩] :
            List Para).length : Int) - 1)⟩) := by
    have hhc : hasContent [(⟨none, x⟩ : Para)] = true := by
      simp [hasContent, hx]
    simp only [closeSection, hhc, if_true, updateSec]
    simp
  refine ⟨?_, ?_, ?_⟩
  · simp only [parse_sections, hclean, hloop, Bool.false_eq_true, if_false, flagAt_none]
    rw [hcloseF]
    simp
  · simp only [parse_sections, hclean, hloop, Bool.false_eq_true, if_false, flagAt_none]
    simp
  · simp only [parse_sections, hclean, hloop, Bool.false_eq_true, if_false, flagAt_none]
    rw [hcloseF]
    simp [hstr]

/-- Witness for claim C10 at the heading text "T" used twice. -/
theorem claim_C10_witness :
    (parse_sections hmap3 3 [h3para (hstr "T"), ⟨none, hstr " "⟩, h3para (hstr "T"),
      ⟨none, hstr "x"⟩] none 0).1.map (fun s => (s.title, s.safe_title, s.content)) =
      [(hstr "T", sanitize_filename (hstr "T") 240 ++ hstr "_1", [⟨none, hstr "x"⟩])] ∧
    sanitize_filename (hstr "T") 240 ∈
      (parse_sections hmap3 3 [h3para (hstr "T"), ⟨none, hstr " "⟩, h3para (hstr "T"),
        ⟨none, hstr "x"⟩] none 0).2.1 ∧
    sanitize_filename (hstr "T") 240 ∉
      (parse_sections hmap3 3 [h3para (hstr "T"), ⟨none, hstr " "⟩, h3para (hstr "T"),
        ⟨none, hstr "x"⟩] none 0).1.map (fun s => s.safe_title) :=
  claim_C10_discarded_section_reserves_name (hstr "T") (hstr "T") (hstr " ") (hstr "x")
    (by decide) (by decide) (by decide) (by decide) (by decide) (by decide)

/-! ### Output packaging (`_create_zip_archive`, `_save_individual_files`,
`process_document`; claims C2, C5, C9) -/

/-- `int((idx / total_sections) * 100)`: truncation of the percentage in
exact arithmetic (the host's binary floating point is abstracted to exact
rationals; the Python expression truncates the float quotient). -/
def percentComplete (idx total : Nat) : Nat := idx * 100 / total

/-- The final archive destination
`output_dir / f"{self.input_path.stem}_sections.zip"`. -/
def zipPath (stem : Str) : Str := stem ++ hstr "_sections.zip"

/-- Per-section loop of `_create_zip_archive`: before each section the
cancellation flag is read and, when set, `None` is returned from inside
the `with` block — the partially filled archive at the final path is
closed and left in place.  A section whose document creation raises
(`fails idx`) is reported and skipped.  Returns (aborted, entries
written, progress reports, flag reads). -/
def zipLoop (T : Option Nat) (fails : Nat → Bool) (total : Nat) :
    List DocSection → Nat → Nat → List Str → List Nat → Bool × List Str × List Nat × Nat
  | [], _, t, entries, prog => (false, entries, prog, t)
  | s :: rest, idx, t, entries, prog =>
    if flagAt T t then (true, entries, prog, t + 1)
    else if fails idx then zipLoop T fails total rest (idx + 1) (t + 1) entries prog
    else zipLoop T fails total rest (idx + 1) (t + 1)
      (entries ++ [s.safe_title ++ hstr ".docx"]) (prog ++ [percentComplete idx total])

/-- `DocxSplitter._create_zip_archive`.  The `with zipfile.ZipFile(zip_path,
'w')` statement creates the archive file at its final destination path the
moment the block opens, so the archive-file component is `some` from the
start and holds the entries written so far whenever the function returns.
Returns (result, archive file contents at the final path, progress
reports, flag reads). -/
def create_zip_archive (stem : Str) (secs : List DocSection) (T : Option Nat) (t0 : Nat)
    (fails : Nat → Bool) : Option Str × Option (List Str) × List Nat × Nat :=
  match zipLoop T fails secs.length secs 1 t0 [] [] with
  | (true, entries, prog, t) => (none, some entries, prog, t)
  | (false, entries, prog, t) =>
    if flagAt T t then (none, some entries, prog, t + 1)
    else (some (zipPath stem), some entries, prog, t + 1)

/-- Per-section loop of `_save_individual_files`: like the archive loop
but writing `<safe_title>.docx` files directly into the output directory;
files written before a cancellation remain on disk. -/
def fileLoop (T : Option Nat) (fails : Nat → Bool) (total : Nat) :
    List DocSection → Nat → Nat → List Str → List Nat → Bool × List Str × List Nat × Nat
  | [], _, t, files, prog => (false, files, prog, t)
  | s :: rest, idx, t, files, prog =>
    if flagAt T t then (true, files, prog, t + 1)
    else if fails idx then fileLoop T fails total rest (idx + 1) (t + 1) files prog
    else fileLoop T fails total rest (idx + 1) (t + 1)
      (files ++ [s.safe_title ++ hstr ".docx"]) (prog ++ [percentComplete idx total])

/-- `DocxSplitter._save_individual_files`: returns (result, files
written into the output directory, progress reports, flag reads). -/
def save_individual_files (outDir : Str) (secs : List DocSection) (T : Option Nat) (t0 : Nat)
    (fails : Nat → Bool) : Option Str × List Str × List Nat × Nat :=
  match fileLoop T fails secs.length secs 1 t0 [] [] with
  | (true, files, prog, t) => (none, files, prog, t)
  | (false, files, prog, t) =>
    if flagAt T t then (none, files, prog, t + 1)
    else (some outDir, files, prog, t + 1)

/-- `DocxSplitter.process_document` for a fresh splitter (`self.sections`
starts empty, so `parse_sections` always runs).  Returns (result, archive
file at the final zip path, individual files written, progress reports,
total flag reads). -/
def process_document (m : HeadingMap) (tl : Int) (paras : List Para) (stem outDir : Str)
    (createZip : Bool) (T : Option Nat) (fails : Nat → Bool) :
    Option Str × Option (List Str) × List Str × List Nat × Nat :=
  match parse_sections m tl paras T 0 with
  | (secs, _, t1) =>
    if flagAt T t1 || secs.isEmpty then (none, none, [], [], t1 + 1)
    else if createZip then
      match create_zip_archive stem secs T (t1 + 1) fails with
      | (res, arch, prog, t2) => (res, arch, [], prog, t2)
    else
      match save_individual_files outDir secs T (t1 + 1) fails with
      | (res, files, prog, t2) => (res, none, files, prog, t2)

/-- Names and progress reports produced by the packaging loops over the
given sections when no cancellation intervenes, starting at 1-based
index `start`, with `total` the full section count of the run. -/
def packOutputs (fails : Nat → Bool) (total : Nat) :
    List DocSection → Nat → List Str × List Nat
  | [], _ => ([], [])
  | s :: rest, i =>
    let r := packOutputs fails total rest (i + 1)
    if fails i then r
    else ((s.safe_title ++ hstr ".docx") :: r.1, percentComplete i total :: r.2)

example : (save_individual_files (hstr "out")
    [⟨hstr "X", hstr "X", 3, [], 0, none⟩, ⟨hstr "Y", hstr "Y", 3, [], 1, none⟩,
     ⟨hstr "Z", hstr "Z", 3, [], 2, none⟩] none 0 (fun _ => false)).2.2.1 =
    [33, 66, 100] := by decide

theorem zipLoop_none (fails : Nat → Bool) (total : Nat) :
    ∀ (rest : List DocSection) (i t : Nat) (entries : List Str) (prog : List Nat),
    zipLoop none fails total rest i t entries prog =
      (false, entries ++ (packOutputs fails total rest i).1,
       prog ++ (packOutputs fails total rest i).2, t + rest.length) := by
  intro rest
  induction rest with
  | nil => intro i t entries prog; simp [zipLoop, packOutputs]
  | cons s rest ih =>
    intro i t entries prog
    simp only [zipLoop, flagAt_none, Bool.false_eq_true, if_false, packOutputs,
      List.length_cons]
    by_cases hf : fails i = true
    · simp only [hf, if_true]
      rw [ih]
      have : t + 1 + rest.length = t + (rest.length + 1) := by omega
      rw [this]
    · simp only [if_neg hf]
      rw [ih]
      have h1 : t + 1 + rest.length = t + (rest.length + 1) := by omega
      rw [h1, List.append_assoc, List.append_assoc]
      simp

theorem fileLoop_none (fails : Nat → Bool) (total : Nat) :
    ∀ (rest : List DocSection) (i t : Nat) (files : List Str) (prog : List Nat),
    fileLoop none fails total rest i t files prog =
      (false, files ++ (packOutputs fails total rest i).1,
       prog ++ (packOutputs fails total rest i).2, t + rest.length) := by
  intro rest
  induction rest with
  | nil => intro i t files prog; simp [fileLoop, packOutputs]
  | cons s rest ih =>
    intro i t files prog
    simp only [fileLoop, flagAt_none, Bool.false_eq_true, if_false, packOutputs,
      List.length_cons]
    by_cases hf : fails i = true
    · simp only [hf, if_true]
      rw [ih]
      have : t + 1 + rest.length = t + (rest.length + 1) := by omega
      rw [this]
    · simp only [if_neg hf]
      rw [ih]
      have h1 : t + 1 + rest.length = t + (rest.length + 1) := by omega
      rw [h1, List.append_assoc, List.append_assoc]
      simp

theorem zipLoop_cancel (fails : Nat → Bool) (total : Nat) :
    ∀ (j : Nat) (rest : List DocSection) (K i t : Nat) (entries : List Str)
      (prog : List Nat), K = t + j → j < rest.length →
    zipLoop (some K) fails total rest i t entries prog =
      (true, entries ++ (packOutputs fails total (rest.take j) i).1,
       prog ++ (packOutputs fails total (rest.take j) i).2, t + j + 1) := by
  intro j
  induction j with
  | zero =>
    intro rest K i t entries prog hK hlt
    cases rest with
    | nil => simp at hlt
    | cons s rest =>
      have hflag : flagAt (some K) t = true := by
        simp only [flagAt, decide_eq_true_iff]
        omega
      simp [zipLoop, hflag, packOutputs]
  | succ j ih =>
    intro rest K i t entries prog hK hlt
    cases rest with
    | nil => simp at hlt
    | cons s rest =>
      have hflag : flagAt (some K) t = false := by
        simp only [flagAt, decide_eq_false_iff_not]
        omega
      simp only [zipLoop, hflag, Bool.false_eq_true, if_false, List.take_succ_cons,
        packOutputs]
      have hlt2 : j < rest.length := by
        simp only [List.length_cons] at hlt
        omega
      have hK2 : K = t + 1 + j := by omega
      by_cases hf : fails i = true
      · simp only [hf, if_true]
        rw [ih rest K (i + 1) (t + 1) entries prog hK2 hlt2]
        have : t + 1 + j = t + (j + 1) := by omega
        rw [this]
      · simp only [if_neg hf]
        rw [ih rest K (i + 1) (t + 1) _ _ hK2 hlt2]
        have h1 : t + 1 + j = t + (j + 1) := by omega
        rw [h1, List.append_assoc, List.append_assoc]
        simp

/-- Nearest-integer rounding of `i / N * 100`, the progress formula that
the specification asserts (written from the spec's words, for comparison
with the code's truncating `percentComplete`). -/
def specRound (i N : Nat) : Nat := (i * 200 + N) / (2 * N)

/-- Counterexample to claim C5: over 3 sections the code reports progress
`[33, 66, 100]` in both file and archive mode — after the second section
it reports 66, while the claimed nearest-integer rounding of 2/3·100 is
67.  The code truncates (`int(...)`) instead of rounding. -/
theorem claim_C5_counterexample :
    (save_individual_files (hstr "out")
      [⟨hstr "X", hstr "X", 3, [], 0, none⟩, ⟨hstr "Y", hstr "Y", 3, [], 1, none⟩,
       ⟨hstr "Z", hstr "Z", 3, [], 2, none⟩] none 0 (fun _ => false)).2.2.1 =
      [33, 66, 100] ∧
    (create_zip_archive (hstr "doc")
      [⟨hstr "X", hstr "X", 3, [], 0, none⟩, ⟨hstr "Y", hstr "Y", 3, [], 1, none⟩,
       ⟨hstr "Z", hstr "Z", 3, [], 2, none⟩] none 0 (fun _ => false)).2.2.1 =
      [33, 66, 100] ∧
    percentComplete 2 3 = 66 ∧ specRound 2 3 = 67 ∧ (66 : Nat) ≠ 67 := by
  refine ⟨by decide, by decide, by decide, by decide, by decide⟩

/-- Claim C5 as amended: in both packaging modes, the progress value
reported after successfully processing the section at 1-based index `i`
of `N` is `⌊i·100/N⌋` — the truncation `int((i / N) * 100)` computed by
the code (modelled in exact arithmetic) — not the nearest-integer
rounding; failing sections report nothing while still advancing `i`. -/
theorem claim_C5_amended_progress_truncates (stem outDir : Str) (secs : List DocSection)
    (fails : Nat → Bool) :
    (create_zip_archive stem secs none 0 fails).2.2.1 =
      (packOutputs fails secs.length secs 1).2 ∧
    (save_individual_files outDir secs none 0 fails).2.2.1 =
      (packOutputs fails secs.length secs 1).2 := by
  constructor
  · simp only [create_zip_archive, zipLoop_none, flagAt_none, Bool.false_eq_true, if_false,
      List.nil_append]
  · simp only [save_individual_files, fileLoop_none, flagAt_none, Bool.false_eq_true, if_false,
      List.nil_append]

/-- Counterexample to claim C2: with two sections and the cancellation
flag observed set at the second per-section checkpoint (after the first
section was written into the archive), `_create_zip_archive` returns the
null sentinel, but the archive file — created at its final destination
path when the `with` block opened — remains there holding the first
entry, contradicting the claim that no partially-written archive exists
at the final path. -/
theorem claim_C2_counterexample :
    create_zip_archive (hstr "doc")
      [⟨hstr "X", hstr "X", 3, [], 0, none⟩, ⟨hstr "Y", hstr "Y", 3, [], 1, none⟩]
      (some 1) 0 (fun _ => false) =
      (none, some [hstr "X.docx"], [50], 2) ∧
    (create_zip_archive (hstr "doc")
      [⟨hstr "X", hstr "X", 3, [], 0, none⟩, ⟨hstr "Y", hstr "Y", 3, [], 1, none⟩]
      (some 1) 0 (fun _ => false)).2.1 ≠ none := by
  refine ⟨by decide, by decide⟩

/-- Claim C2 as amended: when the cancellation flag is observed set at
the per-section checkpoint before section `k + 1` (with at least one
section processed, `1 ≤ k < N`), archive-mode packaging returns the null
sentinel — but the partially-written archive file, holding exactly the
entries of the non-failing sections among the first `k`, remains at the
final destination path `<stem>_sections.zip`. -/
theorem claim_C2_amended_partial_archive_remains (stem : Str) (secs : List DocSection)
    (fails : Nat → Bool) (k : Nat) (hk1 : 1 ≤ k) (hk2 : k < secs.length) :
    create_zip_archive stem secs (some k) 0 fails =
      (none, some (packOutputs fails secs.length (secs.take k) 1).1,
       (packOutputs fails secs.length (secs.take k) 1).2, k + 1) := by
  simp only [create_zip_archive]
  rw [zipLoop_cancel fails secs.length k secs k 1 0 [] [] (by omega) hk2]
  simp

/-- Witness for the amended claim C2 at two sections and k = 1. -/
theorem claim_C2_amended_witness :
    create_zip_archive (hstr "doc")
      [⟨hstr "P", hstr "P", 3, [], 0, none⟩, ⟨hstr "Q", hstr "Q", 3, [], 1, none⟩]
      (some 1) 0 (fun _ => false) =
      (none, some (packOutputs (fun _ => false) 2
        (([⟨hstr "P", hstr "P", 3, [], 0, none⟩,
           ⟨hstr "Q", hstr "Q", 3, [], 1, none⟩] : List DocSection).take 1) 1).1,
       (packOutputs (fun _ => false) 2
        (([⟨hstr "P", hstr "P", 3, [], 0, none⟩,
           ⟨hstr "Q", hstr "Q", 3, [], 1, none⟩] : List DocSection).take 1) 1).2, 2) :=
  claim_C2_amended_partial_archive_remains (hstr "doc")
    [⟨hstr "P", hstr "P", 3, [], 0, none⟩, ⟨hstr "Q", hstr "Q", 3, [], 1, none⟩]
    (fun _ => false) 1 (by decide) (by decide)

/-- Claim C9: (1) when parsing runs with no cancellation request and
finds zero non-empty sections, `process_document` returns the null
sentinel and writes nothing — no archive file, no individual files, no
progress; (2) a canceled run returns the same null sentinel, so a null
result does not imply the run was canceled. -/
theorem claim_C9_null_result_ambiguous :
    (∀ (m : HeadingMap) (tl : Int) (paras : List Para) (stem outDir : Str)
      (createZip : Bool) (fails : Nat → Bool),
      (parse_sections m tl paras none 0).1 = [] →
      process_document m tl paras stem outDir createZip none fails =
        (none, none, [], [], (parse_sections m tl paras none 0).2.2 + 1)) ∧
    (∀ (m : HeadingMap) (tl : Int) (paras : List Para) (stem outDir : Str)
      (createZip : Bool) (fails : Nat → Bool),
      (process_document m tl paras stem outDir createZip (some 0) fails).1 = none) := by
  constructor
  · intro m tl paras stem outDir createZip fails hempty
    rcases hr : parse_sections m tl paras none 0 with ⟨secs, used, t1⟩
    rw [hr] at hempty
    simp only at hempty
    subst hempty
    simp only [process_document, hr, flagAt_none, List.isEmpty_nil, Bool.false_or, if_true]
  · intro m tl paras stem outDir createZip fails
    rcases hr : parse_sections m tl paras (some 0) 0 with ⟨secs, used, t1⟩
    have hfl : flagAt (some 0) t1 = true := by
      simp [flagAt]
    simp only [process_document, hr, hfl, Bool.true_or, if_true]

/-- Witness for claim C9 on the empty document, which has no sections. -/
theorem claim_C9_witness :
    (parse_sections hmap3 3 [] none 0).1 = [] ∧
    process_document hmap3 3 [] (hstr "doc") (hstr "out") true none (fun _ => false) =
      (none, none, [], [], (parse_sections hmap3 3 [] none 0).2.2 + 1) :=
  ⟨by decide,
   claim_C9_null_result_ambiguous.1 hmap3 3 [] (hstr "doc") (hstr "out") true
     (fun _ => false) (by decide)⟩
